import Mathlib

/-! ISO-8601 periods: `duration.go`

A shallow embedding of `Period.String`, `Period.Parse`, `Period.MarshalJSON` and
`Period.UnmarshalJSON`, together with the parts of the Go standard library they
call (`float64`, `math.Abs`, `strconv.FormatFloat(_, 'f', -1, 64)`,
`strconv.ParseFloat(_, 64)`, `strings.Index`, `strconv.Quote` behind `%q`).

* A Go `string` is a list of bytes; `len`, `s[i]` and slicing are list operations.
* A `float64` is NaN, a signed infinity, or a signed finite magnitude.  The finite
  magnitudes are kept in units of `2^-1074` (the smallest subnormal), so that every
  finite binary64 value is a natural number with at most 53 significant bits, below
  `2^2098` (= `2^1024` in those units).
* `Parse` mutates its receiver: the embedding returns the receiver after the call
  next to the returned `error` (`none` for `nil`, `some msg` for an error with text `msg`).
-/

set_option exponentiation.threshold 4096

namespace Iso8601

/-! ## Go strings -/

/-- A Go byte. -/
abbrev Byte := Fin 256

/-- A Go string, as its sequence of bytes. -/
abbrev GoString := List Byte

/-- The bytes of an ASCII literal. -/
def bytes (s : String) : GoString := s.toList.map (fun c => Fin.ofNat c.toNat)

/-! ## float64 -/

/-- Number of binary digits of `n` (`0` for `0`), by halving; the first argument is fuel. -/
def bitLenAux : Nat → Nat → Nat
  | 0, _ => 0
  | fuel + 1, n => if n = 0 then 0 else bitLenAux fuel (n / 2) + 1

/-- Number of binary digits of `n`. -/
def bitLen (n : Nat) : Nat := bitLenAux n n

/-- The finite binary64 magnitudes in units of `2^-1074`: below `2^2098`, and with at most
53 significant bits (every bit under the top 53 is zero). -/
def isMag64 (S : Nat) : Bool :=
  decide (S < 2 ^ 2098) && decide (S % 2 ^ (bitLen S - 53) = 0)

/-- A `float64` value: `fin neg mag` is `(-1)^neg * mag * 2^-1074`. -/
inductive F64 where
  | fin (neg : Bool) (mag : Nat) (h : isMag64 mag = true)
  | inf (neg : Bool)
  | nan
  deriving DecidableEq

namespace F64

/-- The constant `0` (positive zero). -/
def zero : F64 := .fin false 0 (by decide)

/-- The constant `1`. -/
def one : F64 := .fin false (2 ^ 1074) (by decide!)

/-- The constant `2`. -/
def two : F64 := .fin false (2 ^ 1075) (by decide!)

/-- The constant `3`. -/
def three : F64 := .fin false (3 * 2 ^ 1074) (by decide!)

/-- The constant `4`. -/
def four : F64 := .fin false (2 ^ 1076) (by decide!)

/-- The constant `1.5`. -/
def onePointFive : F64 := .fin false (3 * 2 ^ 1073) (by decide!)

/-- The constant `2.5`. -/
def twoPointFive : F64 := .fin false (5 * 2 ^ 1073) (by decide!)

/-- Positive infinity. -/
def posInf : F64 := .inf false

/-- Unary minus: flips the sign bit. -/
def neg : F64 → F64
  | .fin s m h => .fin (!s) m h
  | .inf s => .inf (!s)
  | .nan => .nan

/-- Go `math.Abs`: clears the sign bit. -/
def abs : F64 → F64
  | .fin _ m h => .fin false m h
  | .inf _ => .inf false
  | .nan => .nan

/-- Go `==` on `float64`: NaN equals nothing, the two zeros are equal. -/
def eq : F64 → F64 → Bool
  | .fin s m _, .fin t n _ => m == n && (s == t || m == 0)
  | .inf s, .inf t => s == t
  | _, _ => false

/-- Go `x == 0`. -/
def isZero (x : F64) : Bool := x.eq zero

/-- Go `x >= 0`: false for NaN, true for both zeros and for `+Inf`. -/
def nonneg : F64 → Bool
  | .fin s m _ => !s || m == 0
  | .inf s => !s
  | .nan => false

/-- Neither NaN nor an infinity. -/
def isFinite : F64 → Bool
  | .fin _ _ _ => true
  | _ => false

end F64

/-! ## strconv.ParseFloat -/

/-- Round the non-negative rational `A / B` to the nearest binary64 magnitude (in units of
`2^-1074`), ties to even.  With `t` the integer part, the spacing of magnitudes around `A / B`
is `2^s` where `s` is the number of bits of `t` beyond 53 (spacing `1` in the subnormal range
and the first binade). The result may be `2^2098` or more: that is overflow. -/
def roundMag (A B : Nat) : Nat :=
  let t := A / B
  let s := bitLen t - 53
  let D := B * 2 ^ s
  let m := A / D
  let r := A % D
  if 2 * r > D ∨ (2 * r = D ∧ m % 2 = 1) then (m + 1) * 2 ^ s else m * 2 ^ s

/-- An ASCII decimal digit. -/
def isDigit (c : Byte) : Bool := decide (48 ≤ c.val) && decide (c.val ≤ 57)

/-- Value of a run of decimal digits, most significant first. -/
def digitsVal (ds : GoString) : Nat := ds.foldl (fun a c => a * 10 + (c.val - 48)) 0

/-- The decimal grammar of `ParseFloat` over digits and `.`: digits, optionally one `.`,
digits, with at least one digit overall. Returns `(N, k)` for the numeral `N / 10^k`. -/
def readDecimal (s : GoString) : Option (Nat × Nat) :=
  let ip := s.takeWhile isDigit
  match s.dropWhile isDigit with
  | [] => if ip = [] then none else some (digitsVal ip, 0)
  | c :: fp =>
    if c = 46 ∧ fp.all isDigit = true ∧ (ip ≠ [] ∨ fp ≠ []) then
      some (digitsVal (ip ++ fp), fp.length)
    else none

/-- Go `strconv.ParseFloat(s, 64)` on the texts `Parse` can hand it (bytes `0`-`9` and `.`
only): `some v` for `(v, nil)`, `none` for a non-nil error, which is a syntax error or, when
the correctly rounded value does not fit binary64, a range error. Any other byte is reported
as a failure here; `Parse` never puts one in its buffer. -/
def parseFloat (s : GoString) : Option F64 :=
  match readDecimal s with
  | none => none
  | some (N, k) =>
    if h : isMag64 (roundMag (N * 2 ^ 1074) (10 ^ k)) = true then
      some (.fin false (roundMag (N * 2 ^ 1074) (10 ^ k)) h)
    else none

/-! ## strconv.FormatFloat -/

/-- The byte of the decimal digit `d`. -/
def digitByte (d : Nat) : Byte := Fin.ofNat (48 + d)

/-- Decimal digits of `n`, most significant first; `0` is `"0"`. -/
def natDigits (n : Nat) : GoString :=
  if n = 0 then [48] else (Nat.digits 10 n).reverse.map digitByte

/-- The fraction `f / 10^k` (with `f < 10^k`) as `k` digits after the point, trailing zeros
removed. -/
def fracDigits (k f : Nat) : GoString :=
  ((Nat.digits 10 f ++ List.replicate (k - (Nat.digits 10 f).length) 0).dropWhile
    (fun d => decide (d = 0))).reverse.map digitByte

/-- Format `%f` of the decimal `c / 10^k` with the fewest fraction digits: the integer part
(at least `"0"`), then `.` and the fraction digits when there are any. -/
def fmtF (c k : Nat) : GoString :=
  natDigits (c / 10 ^ k) ++
    (if fracDigits k (c % 10 ^ k) = [] then [] else 46 :: fracDigits k (c % 10 ^ k))

/-- Candidates for the shortest decimal of the magnitude whose exact decimal expansion is
`N0 / 10^1074`, in the order they are tried: for `n = 1, ..., 17` significant digits the two
neighbours of `N0` with `n` digits, the nearer one first (ties to the even digit); then the
exact expansion itself (17 digits always suffice for binary64, so this last entry only
closes the search). -/
def shortestCandidates (N0 : Nat) : List Nat :=
  ((List.range 17).flatMap fun i =>
    if (Nat.digits 10 N0).length ≤ i + 1 then [N0]
    else
      let q := 10 ^ ((Nat.digits 10 N0).length - (i + 1))
      let lo := N0 / q * q
      let hi := lo + q
      if 2 * (N0 % q) < q ∨ (2 * (N0 % q) = q ∧ (N0 / q) % 2 = 0) then [lo, hi] else [hi, lo])
  ++ [N0]

/-- The shortest decimal that `ParseFloat` reads back as the magnitude `S`, as a numerator
over `10^1074`. -/
def shortestDec (S : Nat) : Nat :=
  ((shortestCandidates (S * 5 ^ 1074)).find?
    (fun c => decide (roundMag (c * 2 ^ 1074) (10 ^ 1074) = S))).getD (S * 5 ^ 1074)

/-- Go `strconv.FormatFloat(x, 'f', -1, 64)`: no exponent, the smallest number of digits
such that `ParseFloat` returns `x` exactly; `NaN`, `+Inf`, `-Inf` for the special values. -/
def formatFloat : F64 → GoString
  | .nan => bytes "NaN"
  | .inf false => bytes "+Inf"
  | .inf true => bytes "-Inf"
  | .fin s m _ => (if s then [45] else []) ++ fmtF (shortestDec m) 1074

/-! ## fmt -/

/-- Verb `%c` of `fmt` applied to a byte: the UTF-8 encoding of the code point of that
number (one byte below `0x80`, two bytes from `0x80` on). -/
def fmtC (c : Byte) : GoString :=
  if c.val < 128 then [c] else [Fin.ofNat (192 + c.val / 64), Fin.ofNat (128 + c.val % 64)]

/-- Lower-case hexadecimal digit. -/
def hexDigit (n : Nat) : Byte := if n < 10 then Fin.ofNat (48 + n) else Fin.ofNat (87 + n)

/-- What `strconv.Quote` writes for one ASCII byte: a backslash before the double quote and
the backslash, the byte itself when printable (`0x20` to `0x7e`), and a backslash escape
for the control bytes. -/
def escapeAscii (c : Byte) : GoString :=
  if c = 34 ∨ c = 92 then [92, c]
  else if 32 ≤ c.val ∧ c.val < 127 then [c]
  else if c = 7 then [92, 97]
  else if c = 8 then [92, 98]
  else if c = 12 then [92, 102]
  else if c = 10 then [92, 110]
  else if c = 13 then [92, 114]
  else if c = 9 then [92, 116]
  else if c = 11 then [92, 118]
  else [92, 120, hexDigit (c.val / 16), hexDigit (c.val % 16)]

/-- The inside of a string quoted by `strconv.Quote`. ASCII bytes are handled one at a time
by `escapeAscii`; from the first byte at or above `0x80` on, the outcome depends on UTF-8
decoding and on the Unicode tables behind `unicode.IsPrint`, and is left to the argument
`nonAscii`. -/
def quoteBody (nonAscii : GoString → GoString) : GoString → GoString
  | [] => []
  | c :: cs => if 128 ≤ c.val then nonAscii (c :: cs) else escapeAscii c ++ quoteBody nonAscii cs

/-- Go `fmt.Sprintf("%q", s)`, that is `strconv.Quote(s)`. -/
def sprintfQ (nonAscii : GoString → GoString) (s : GoString) : GoString :=
  34 :: quoteBody nonAscii s ++ [34]

/-! ## duration.go -/

/-- Go `type Period struct`: four `float64` fields. -/
structure Period where
  Years : F64
  Months : F64
  Weeks : F64
  Days : F64
  deriving DecidableEq

/-- The zero value `Period{}`. -/
def Period.zero : Period := ⟨F64.zero, F64.zero, F64.zero, F64.zero⟩

/-- Go `func (p Period) String() string`. -/
def Period.String (p : Period) : GoString :=
  if p.Years.isZero && p.Months.isZero && p.Weeks.isZero && p.Days.isZero then bytes "P0D"
  else
    let out := bytes "P"
    let out := if !p.Years.isZero then out ++ (formatFloat p.Years.abs ++ [89]) else out
    let out := if !p.Months.isZero then out ++ (formatFloat p.Months.abs ++ [77]) else out
    let out := if !p.Weeks.isZero then out ++ (formatFloat p.Weeks.abs ++ [87]) else out
    let out := if !p.Days.isZero then out ++ (formatFloat p.Days.abs ++ [68]) else out
    out

/-- Text of the error returned when the prefix check fails. -/
def errMustStartWithP : GoString := bytes "invalid period format: must start with P"

/-- Text of `fmt.Errorf("invalid number format: %s", num)`. -/
def errInvalidNumber (num : GoString) : GoString := bytes "invalid number format: " ++ num

/-- Text of `fmt.Errorf("invalid character in period: %c", c)`. -/
def errInvalidCharacter (c : Byte) : GoString := bytes "invalid character in period: " ++ fmtC c

/-- Text of the error `UnmarshalJSON` returns for a token shorter than two bytes. -/
def errInvalidJSONLength : GoString := bytes "invalid JSON string length"

/-- The inner `switch c` of `Parse`: store `val` in the field named by the unit letter. -/
def setField (c : Byte) (val : F64) (p : Period) : Period :=
  if c = 89 then { p with Years := val }
  else if c = 77 then { p with Months := val }
  else if c = 87 then { p with Weeks := val }
  else if c = 68 then { p with Days := val }
  else p

/-- The `for` loop of `Parse` over the bytes `s[i:]` still to be read, with the loop state
`num` (numeral buffer), `negative` (sign flag) and the receiver `p`. Returns the receiver and
the error at the point where the function returns. -/
def scan : GoString → GoString → Bool → Period → Period × Option GoString
  | [], _, _, p => (p, none)
  | c :: cs, num, negative, p =>
    if c = 45 then scan cs num true p
    else if c = 43 then scan cs num false p
    else if (48 ≤ c.val ∧ c.val ≤ 57) ∨ c = 46 then scan cs (num ++ [c]) negative p
    else if c = 89 ∨ c = 77 ∨ c = 87 ∨ c = 68 then
      if num = [] then scan cs num negative p
      else
        match parseFloat num with
        | none => (p, some (errInvalidNumber num))
        | some val =>
          scan cs [] false (setField c (if negative then val.neg else val) p)
    else (p, some (errInvalidCharacter c))

/-- Go `strings.Index(s, "T")` followed by `s = s[:idx]` when `idx != -1`. -/
def cutAtT (s : GoString) : GoString :=
  if s.indexOf (84 : Byte) < s.length then s.take (s.indexOf (84 : Byte)) else s

/-- Go `func (p *Period) Parse(s string) error`: the receiver after the call and the error. -/
def Period.Parse (p : Period) (s : GoString) : Period × Option GoString :=
  if s.length < 2 ∨ s.head? ≠ some 80 then (p, some errMustStartWithP)
  else if cutAtT s = bytes "P0D" then (Period.zero, none)
  else scan ((cutAtT s).drop 1) [] false Period.zero

/-- Go `func ParsePeriod(s string) (*Period, error)`: `Parse` on a fresh `&Period{}`; the
pointer is `nil` (`none`) exactly when the error is not. -/
def ParsePeriod (s : GoString) : Option Period × Option GoString :=
  match Period.zero.Parse s with
  | (p, none) => (some p, none)
  | (_, some err) => (none, some err)

/-- Go `func (p Period) MarshalJSON() ([]byte, error)`. -/
def Period.MarshalJSON (nonAscii : GoString → GoString) (p : Period) :
    GoString × Option GoString :=
  (sprintfQ nonAscii p.String, none)

/-- Go `func (p *Period) UnmarshalJSON(data []byte) error`: the receiver after the call and
the error. -/
def Period.UnmarshalJSON (p : Period) (data : GoString) : Period × Option GoString :=
  if data.length < 2 then (p, some errInvalidJSONLength)
  else p.Parse ((data.take (data.length - 1)).drop 1)

/-! ## The specification's vocabulary -/

/-- One segment of the canonical form: empty when `x == 0`, else the decimal rendering of
`|x|` followed by the unit letter. -/
def seg (x : F64) (u : Byte) : GoString := if x.isZero = true then [] else formatFloat x.abs ++ [u]

/-- The canonical form of the specification: `P0D` when all four fields are zero, else `P`
and the segments in the order years, months, weeks, days. -/
def canonical (p : Period) : GoString :=
  if p.Years.isZero = true ∧ p.Months.isZero = true ∧ p.Weeks.isZero = true ∧
      p.Days.isZero = true then bytes "P0D"
  else bytes "P" ++ seg p.Years 89 ++ seg p.Months 77 ++ seg p.Weeks 87 ++ seg p.Days 68

/-- The part of a text before its first `T` (all of it when it has none). -/
def beforeT (s : GoString) : GoString := s.takeWhile (fun c => decide (c ≠ 84))

/-- A unit letter: `Y`, `M`, `W` or `D`. -/
def isUnit (c : Byte) : Bool := decide (c = 89) || decide (c = 77) || decide (c = 87) || decide (c = 68)

/-- The numeral bytes: a digit or the point. -/
def isNumChar (c : Byte) : Bool := isDigit c || decide (c = 46)

/-- The characters of the period grammar after the leading `P`: `0`-`9`, `.`, `+`, `-`,
`Y`, `M`, `W`, `D`. -/
def isPeriodChar (c : Byte) : Bool :=
  isDigit c || decide (c = 46) || decide (c = 43) || decide (c = 45) || isUnit c

/-- Field-wise Go `==` of two periods (the `!=` of the tests, negated). -/
def Period.eq (a b : Period) : Bool :=
  a.Years.eq b.Years && a.Months.eq b.Months && a.Weeks.eq b.Weeks && a.Days.eq b.Days

/-- The period with every field replaced by its absolute value. -/
def Period.abs (p : Period) : Period := ⟨p.Years.abs, p.Months.abs, p.Weeks.abs, p.Days.abs⟩

/-- All four fields satisfy Go `>= 0`. -/
def Period.nonneg (p : Period) : Bool :=
  p.Years.nonneg && p.Months.nonneg && p.Weeks.nonneg && p.Days.nonneg

/-- All four fields are finite. -/
def Period.isFinite (p : Period) : Bool :=
  p.Years.isFinite && p.Months.isFinite && p.Weeks.isFinite && p.Days.isFinite

/-- A segment of period text: an optional sign (`some false` for `+`, `some true` for `-`),
a numeral and a unit letter. -/
structure Segment where
  sign : Option Bool
  numeral : GoString
  unit : Byte

/-- The text of a segment. -/
def Segment.text (g : Segment) : GoString :=
  (match g.sign with
    | none => []
    | some false => [43]
    | some true => [45]) ++ g.numeral ++ [g.unit]

/-- A valid decimal numeral: digits and at most one `.`, with at least one digit. -/
def isDecimalNumeral (n : GoString) : Bool :=
  n.all isNumChar && decide (n.count 46 ≤ 1) && n.any isDigit

/-- The text `P` followed by the segments. -/
def segmentsText (gs : List Segment) : GoString := 80 :: (gs.map Segment.text).flatten

/-- One or more segments, each with a valid decimal numeral and a unit letter, the unit
letters pairwise distinct. -/
def wellFormedSegments (gs : List Segment) : Prop :=
  gs ≠ [] ∧ (∀ g ∈ gs, isUnit g.unit = true ∧ isDecimalNumeral g.numeral = true) ∧
    (gs.map Segment.unit).Nodup

/-- The field of a period named by a unit letter. -/
def Period.field (p : Period) (u : Byte) : F64 :=
  if u = 89 then p.Years else if u = 77 then p.Months else if u = 87 then p.Weeks else p.Days

/-- The value a segment stores: the value of its numeral, negated when the sign is `-`. -/
def Segment.value (g : Segment) : Option F64 :=
  match parseFloat g.numeral with
  | none => none
  | some v => some (if g.sign = some true then v.neg else v)

/-- The period after storing the values of the segments one after the other. -/
def applySegments (p : Period) (gs : List Segment) : Period :=
  gs.foldl (fun q g => setField g.unit (g.value.getD F64.nan) q) p

/-- The numeral `1` followed by 309 zeros (ten to the 309, above the largest `float64`). -/
def hugeNumeral : GoString := 49 :: List.replicate 309 48

/-- The segments of the text `P1Y-2.5M`. -/
def sampleSegments : List Segment :=
  [⟨none, bytes "1", 89⟩, ⟨some true, bytes "2.5", 77⟩]

/-- The state of the loop of `Parse` (numeral buffer, sign flag, receiver) after it has read
the bytes `cs` without returning; `none` when the loop returns with an error among them. -/
def loopState : GoString → GoString × Bool × Period → Option (GoString × Bool × Period)
  | [], st => some st
  | c :: cs, (num, negative, p) =>
    if c = 45 then loopState cs (num, true, p)
    else if c = 43 then loopState cs (num, false, p)
    else if (48 ≤ c.val ∧ c.val ≤ 57) ∨ c = 46 then loopState cs (num ++ [c], negative, p)
    else if c = 89 ∨ c = 77 ∨ c = 87 ∨ c = 68 then
      if num = [] then loopState cs (num, negative, p)
      else
        match parseFloat num with
        | none => none
        | some val =>
          loopState cs ([], false, setField c (if negative then val.neg else val) p)
    else none

/-- The stores `p.X = val` the loop of `Parse` performs on the bytes `cs`, in order, each
with its unit letter: the numbers completed by a unit letter. -/
def completions : GoString → GoString → Bool → List (Byte × F64)
  | [], _, _ => []
  | c :: cs, num, negative =>
    if c = 45 then completions cs num true
    else if c = 43 then completions cs num false
    else if (48 ≤ c.val ∧ c.val ≤ 57) ∨ c = 46 then completions cs (num ++ [c]) negative
    else if c = 89 ∨ c = 77 ∨ c = 87 ∨ c = 68 then
      if num = [] then completions cs num negative
      else
        match parseFloat num with
        | none => []
        | some val => (c, if negative then val.neg else val) :: completions cs [] false
    else []

/-- A sign character: `+` or `-`. -/
def isSign (c : Byte) : Bool := decide (c = 43) || decide (c = 45)

/-- Whether the last sign character of `w` is `-` (`false` when `w` has no sign character). -/
def pendingSign (w : GoString) : Bool :=
  match (w.filter isSign).getLast? with
  | some c => decide (c = 45)
  | none => false

/-- The value the loop leaves in the field `u` after the stores `l`: that of the last store
into `u`, or `0` when there is none. -/
def lastStored (l : List (Byte × F64)) (u : Byte) : F64 :=
  match (l.filter (fun e => decide (e.1 = u))).getLast? with
  | some e => e.2
  | none => F64.zero

/-! # Theorems -/

/-! ## Truncation at the time designator -/

theorem bytes_P0D : bytes "P0D" = [80, 48, 68] := by decide

theorem bytes_P : bytes "P" = [80] := by decide

theorem cutAtT_eq_takeWhile (s : GoString) :
    cutAtT s = s.takeWhile (fun c => decide (c ≠ 84)) := by
  induction s with
  | nil => simp [cutAtT]
  | cons a s ih =>
    by_cases h : a = 84
    · subst h
      simp [cutAtT, List.indexOf_cons]
    · have h2 : (a == (84 : Byte)) = false := by simpa using h
      unfold cutAtT at ih ⊢
      simp only [List.indexOf_cons, h2, List.length_cons, List.takeWhile_cons]
      simp only [cond_false, Nat.add_lt_add_iff_right, List.take_succ_cons, h, ne_eq,
        not_false_eq_true, decide_True, if_true]
      split at ih
      · rename_i h3; rw [if_pos h3, ih]
      · rename_i h3; rw [if_neg h3, ← ih]

theorem cutAtT_of_not_mem (s : GoString) (h : (84 : Byte) ∉ s) : cutAtT s = s := by
  rw [cutAtT_eq_takeWhile, List.takeWhile_eq_self_iff]
  intro c hc
  simp only [ne_eq, decide_eq_true_eq]
  rintro rfl
  exact h hc

theorem cutAtT_append (u r : GoString) (h : (84 : Byte) ∉ u) : cutAtT (u ++ 84 :: r) = u := by
  rw [cutAtT_eq_takeWhile]
  induction u with
  | nil => simp
  | cons a u ih =>
    have ha : a ≠ 84 := fun e => h (by simp [e])
    have hu : (84 : Byte) ∉ u := fun e => h (by simp [e])
    have := ih hu
    simpa [List.takeWhile_cons, ha] using this

/-! ## The scan, one byte at a time -/

theorem errInvalidNumber_ne (n : GoString) : errInvalidNumber n ≠ errMustStartWithP := by
  intro h
  have h2 := congrArg (List.take 9) h
  rw [errInvalidNumber, List.take_append_of_le_length (by decide)] at h2
  exact absurd h2 (by decide)

theorem errInvalidCharacter_ne (c : Byte) : errInvalidCharacter c ≠ errMustStartWithP := by
  intro h
  have h2 := congrArg (List.take 9) h
  rw [errInvalidCharacter, List.take_append_of_le_length (by decide)] at h2
  exact absurd h2 (by decide)

theorem scan_minus (cs num : GoString) (neg : Bool) (p : Period) :
    scan (45 :: cs) num neg p = scan cs num true p := by
  rw [scan, if_pos rfl]

theorem scan_plus (cs num : GoString) (neg : Bool) (p : Period) :
    scan (43 :: cs) num neg p = scan cs num false p := by
  rw [scan, if_neg (by decide), if_pos rfl]

theorem scan_numChar (c : Byte) (hc : isNumChar c = true) (cs num : GoString) (neg : Bool)
    (p : Period) : scan (c :: cs) num neg p = scan cs (num ++ [c]) neg p := by
  have h3 : (48 ≤ c.val ∧ c.val ≤ 57) ∨ c = 46 := by
    simpa [isNumChar, isDigit] using hc
  have h1 : c ≠ 45 := by
    rintro rfl; revert hc; decide
  have h2 : c ≠ 43 := by
    rintro rfl; revert hc; decide
  rw [scan, if_neg h1, if_neg h2, if_pos h3]

theorem unit_not_others (c : Byte) (hc : isUnit c = true) :
    c ≠ 45 ∧ c ≠ 43 ∧ ¬ ((48 ≤ c.val ∧ c.val ≤ 57) ∨ c = 46) ∧
      (c = 89 ∨ c = 77 ∨ c = 87 ∨ c = 68) := by
  have h : c = 89 ∨ c = 77 ∨ c = 87 ∨ c = 68 := by
    simpa [isUnit, or_assoc] using hc
  rcases h with rfl | rfl | rfl | rfl <;> decide

theorem scan_unit_empty (c : Byte) (hc : isUnit c = true) (cs : GoString) (neg : Bool)
    (p : Period) : scan (c :: cs) [] neg p = scan cs [] neg p := by
  obtain ⟨h1, h2, h3, h4⟩ := unit_not_others c hc
  rw [scan, if_neg h1, if_neg h2, if_neg h3, if_pos h4, if_pos rfl]

theorem scan_unit_some (c : Byte) (hc : isUnit c = true) (cs num : GoString) (neg : Bool)
    (p : Period) (v : F64) (hn : num ≠ []) (hv : parseFloat num = some v) :
    scan (c :: cs) num neg p = scan cs [] false (setField c (if neg then v.neg else v) p) := by
  obtain ⟨h1, h2, h3, h4⟩ := unit_not_others c hc
  rw [scan, if_neg h1, if_neg h2, if_neg h3, if_pos h4, if_neg hn, hv]

theorem scan_unit_none (c : Byte) (hc : isUnit c = true) (cs num : GoString) (neg : Bool)
    (p : Period) (hn : num ≠ []) (hv : parseFloat num = none) :
    scan (c :: cs) num neg p = (p, some (errInvalidNumber num)) := by
  obtain ⟨h1, h2, h3, h4⟩ := unit_not_others c hc
  rw [scan, if_neg h1, if_neg h2, if_neg h3, if_pos h4, if_neg hn, hv]

theorem scan_bad_char (c : Byte) (hc : isPeriodChar c = false) (cs num : GoString) (neg : Bool)
    (p : Period) : scan (c :: cs) num neg p = (p, some (errInvalidCharacter c)) := by
  simp only [isPeriodChar, isDigit, isUnit, Bool.or_eq_false_iff, Bool.and_eq_false_iff,
    decide_eq_false_iff_not] at hc
  obtain ⟨⟨⟨⟨h1, h2⟩, h3⟩, h4⟩, ⟨⟨h5, h6⟩, h7⟩, h8⟩ := hc
  have h9 : ¬ ((48 ≤ c.val ∧ c.val ≤ 57) ∨ c = 46) := by
    rintro (h | h)
    · rcases h1 with h1 | h1 <;> omega
    · exact h2 h
  have h10 : ¬ (c = 89 ∨ c = 77 ∨ c = 87 ∨ c = 68) := by
    rintro (h | h | h | h) <;> contradiction
  rw [scan, if_neg h4, if_neg h3, if_neg h9, if_neg h10]

/-- Every byte is a sign, a numeral byte, a unit letter, or outside the grammar. -/
theorem byte_cases (c : Byte) :
    c = 45 ∨ c = 43 ∨ isNumChar c = true ∨ isUnit c = true ∨ isPeriodChar c = false := by
  by_cases h1 : c = 45
  · exact Or.inl h1
  by_cases h2 : c = 43
  · exact Or.inr (Or.inl h2)
  by_cases h3 : isNumChar c = true
  · exact Or.inr (Or.inr (Or.inl h3))
  by_cases h4 : isUnit c = true
  · exact Or.inr (Or.inr (Or.inr (Or.inl h4)))
  refine Or.inr (Or.inr (Or.inr (Or.inr ?_)))
  simp only [isNumChar, Bool.or_eq_true, not_or, Bool.not_eq_true] at h3
  simp only [Bool.not_eq_true] at h4
  simp [isPeriodChar, h3.1, h3.2, h1, h2, h4]

/-- An error of the loop is one of its two `fmt.Errorf` texts. -/
theorem scan_error_form (cs : GoString) : ∀ (num : GoString) (neg : Bool) (p : Period)
    (e : GoString), (scan cs num neg p).2 = some e →
    (∃ n, e = errInvalidNumber n) ∨ (∃ c, e = errInvalidCharacter c) := by
  induction cs with
  | nil => intro num neg p e h; simp [scan] at h
  | cons c cs ih =>
    intro num neg p e h
    rcases byte_cases c with rfl | rfl | hc | hc | hc
    · rw [scan_minus] at h; exact ih _ _ _ _ h
    · rw [scan_plus] at h; exact ih _ _ _ _ h
    · rw [scan_numChar c hc] at h; exact ih _ _ _ _ h
    · by_cases hn : num = []
      · subst hn; rw [scan_unit_empty c hc] at h; exact ih _ _ _ _ h
      · cases hp : parseFloat num with
        | none =>
          rw [scan_unit_none c hc _ _ _ _ hn hp] at h
          exact Or.inl ⟨num, (Option.some.inj h).symm⟩
        | some v => rw [scan_unit_some c hc _ _ _ _ v hn hp] at h; exact ih _ _ _ _ h
    · rw [scan_bad_char c hc] at h
      exact Or.inr ⟨c, (Option.some.inj h).symm⟩

/-- A byte outside the grammar anywhere in the rest of the text makes the loop fail. -/
theorem scan_bad (cs : GoString) : ∀ (num : GoString) (neg : Bool) (p : Period),
    (∃ c ∈ cs, isPeriodChar c = false) → (scan cs num neg p).2 ≠ none := by
  induction cs with
  | nil => intro num neg p h; simp at h
  | cons c cs ih =>
    intro num neg p h
    by_cases hbad : isPeriodChar c = false
    · rw [scan_bad_char c hbad]; simp
    · have hrest : ∃ d ∈ cs, isPeriodChar d = false := by
        obtain ⟨d, hd, hd2⟩ := h
        rcases List.mem_cons.mp hd with rfl | hd
        · exact absurd hd2 hbad
        · exact ⟨d, hd, hd2⟩
      rcases byte_cases c with rfl | rfl | hc | hc | hc
      · rw [scan_minus]; exact ih _ _ _ hrest
      · rw [scan_plus]; exact ih _ _ _ hrest
      · rw [scan_numChar c hc]; exact ih _ _ _ hrest
      · by_cases hn : num = []
        · subst hn; rw [scan_unit_empty c hc]; exact ih _ _ _ hrest
        · cases hp : parseFloat num with
          | none => rw [scan_unit_none c hc _ _ _ _ hn hp]; simp
          | some v => rw [scan_unit_some c hc _ _ _ _ v hn hp]; exact ih _ _ _ hrest
      · exact absurd hc hbad

/-- The special case for `P0D` returns what the loop would return on that text. -/
theorem scan_0D : scan [48, 68] [] false Period.zero = (Period.zero, none) := by decide!

/-- Past the prefix check, `Parse` is the loop on the text cut at `T`. -/
theorem Parse_eq_scan (p : Period) (s : GoString) (h1 : 2 ≤ s.length) (h2 : s.head? = some 80) :
    p.Parse s = scan ((beforeT s).drop 1) [] false Period.zero := by
  unfold Period.Parse
  rw [if_neg (by simp [h2]; omega), cutAtT_eq_takeWhile]
  unfold beforeT
  split_ifs with h
  · rw [h, bytes_P0D]; exact scan_0D.symm
  · rfl

theorem isZero_abs (x : F64) : x.abs.isZero = x.isZero := by
  cases x with
  | fin s m h =>
    simp only [F64.abs, F64.isZero, F64.eq, F64.zero]
    cases s <;> simp
  | inf s => rfl
  | nan => rfl

theorem abs_abs (x : F64) : x.abs.abs = x.abs := by
  cases x <;> rfl

theorem head?_append_of_two (u v : GoString) (h1 : 2 ≤ u.length) :
    (u ++ v).head? = u.head? := by
  cases u with
  | nil => simp at h1
  | cons a u => rfl

/-! ## Decimal digits -/

theorem digitByte_val (d : Nat) (h : d < 10) : (digitByte d).val = 48 + d := by
  unfold digitByte
  simp only [Fin.ofNat, Fin.val_mk]
  omega

theorem isDigit_digitByte (d : Nat) (h : d < 10) : isDigit (digitByte d) = true := by
  simp only [isDigit, digitByte_val d h, Bool.and_eq_true, decide_eq_true_eq]
  omega

theorem digitsVal_foldl (ys : GoString) : ∀ a : Nat,
    List.foldl (fun a (c : Byte) => a * 10 + (c.val - 48)) a ys =
      a * 10 ^ ys.length + digitsVal ys := by
  induction ys with
  | nil => intro a; simp [digitsVal]
  | cons y ys ih =>
    intro a
    simp only [List.foldl_cons, List.length_cons, digitsVal]
    rw [ih, ih (0 * 10 + (y.val - 48))]
    ring

theorem digitsVal_append (xs ys : GoString) :
    digitsVal (xs ++ ys) = digitsVal xs * 10 ^ ys.length + digitsVal ys := by
  unfold digitsVal
  rw [List.foldl_append]
  exact digitsVal_foldl ys _

theorem digitsVal_reverse_map (l : List Nat) (h : ∀ d ∈ l, d < 10) :
    digitsVal (l.reverse.map digitByte) = Nat.ofDigits 10 l := by
  induction l with
  | nil => rfl
  | cons d l ih =>
    have hd : d < 10 := h d (List.mem_cons_self _ _)
    have hl : ∀ e ∈ l, e < 10 := fun e he => h e (List.mem_cons_of_mem _ he)
    rw [List.reverse_cons, List.map_append, digitsVal_append, ih hl, Nat.ofDigits_cons]
    simp only [List.map_cons, List.map_nil, List.length_singleton, digitsVal, List.foldl_cons,
      List.foldl_nil, digitByte_val d hd]
    omega

theorem all_isDigit_reverse_map (l : List Nat) (h : ∀ d ∈ l, d < 10) :
    ∀ c ∈ l.reverse.map digitByte, isDigit c = true := by
  intro c hc
  simp only [List.mem_map, List.mem_reverse] at hc
  obtain ⟨d, hd, rfl⟩ := hc
  exact isDigit_digitByte d (h d hd)

theorem natDigits_isDigit (n : Nat) : ∀ c ∈ natDigits n, isDigit c = true := by
  unfold natDigits
  split_ifs with h
  · intro c hc
    simp only [List.mem_singleton] at hc
    subst hc; decide
  · exact all_isDigit_reverse_map _ (fun d hd => Nat.digits_lt_base (by norm_num) hd)

theorem natDigits_ne_nil (n : Nat) : natDigits n ≠ [] := by
  unfold natDigits
  split_ifs with h
  · simp
  · simp [Nat.digits_eq_nil_iff_eq_zero, h]

theorem digitsVal_natDigits (n : Nat) : digitsVal (natDigits n) = n := by
  unfold natDigits
  split_ifs with h
  · subst h; rfl
  · rw [digitsVal_reverse_map _ (fun d hd => Nat.digits_lt_base (by norm_num) hd),
      Nat.ofDigits_digits]

/-- The zero-padded little-endian digits of a fraction numerator. -/
theorem padded_lt (k f : Nat) :
    ∀ d ∈ Nat.digits 10 f ++ List.replicate (k - (Nat.digits 10 f).length) 0, d < 10 := by
  intro d hd
  rcases List.mem_append.mp hd with h | h
  · exact Nat.digits_lt_base (by norm_num) h
  · rw [List.eq_of_mem_replicate h]; norm_num

theorem padded_length (k f : Nat) (hf : f < 10 ^ k) :
    (Nat.digits 10 f ++ List.replicate (k - (Nat.digits 10 f).length) 0).length = k := by
  have h : (Nat.digits 10 f).length ≤ k := by
    by_cases h0 : f = 0
    · subst h0; simp
    · have h1 := Nat.base_pow_length_digits_le 10 f (by norm_num) h0
      have h2 : 10 ^ (Nat.digits 10 f).length < 10 ^ (k + 1) := by
        rw [pow_succ]; omega
      have h3 := (Nat.pow_lt_pow_iff_right (by norm_num : 1 < 10)).mp h2
      omega
  rw [List.length_append, List.length_replicate]
  omega

theorem padded_ofDigits (k f : Nat) :
    Nat.ofDigits 10 (Nat.digits 10 f ++ List.replicate (k - (Nat.digits 10 f).length) 0) = f := by
  rw [Nat.ofDigits_append, Nat.ofDigits_digits]
  have : ∀ n : Nat, Nat.ofDigits 10 (List.replicate n 0) = 0 := by
    intro n
    induction n with
    | zero => rfl
    | succ n ih => rw [List.replicate_succ, Nat.ofDigits_cons, ih]
  rw [this]; simp

theorem ofDigits_dropWhile_zero (L : List Nat) :
    (L.dropWhile (fun d => decide (d = 0))).length ≤ L.length ∧
    Nat.ofDigits 10 L =
      Nat.ofDigits 10 (L.dropWhile (fun d => decide (d = 0))) *
        10 ^ (L.length - (L.dropWhile (fun d => decide (d = 0))).length) := by
  induction L with
  | nil => simp
  | cons d L ih =>
    by_cases hd : d = 0
    · subst hd
      simp only [List.dropWhile_cons, decide_True, if_true, List.length_cons]
      refine ⟨by omega, ?_⟩
      rw [Nat.ofDigits_cons, ih.2]
      have : L.length + 1 - (L.dropWhile (fun d => decide (d = 0))).length =
          (L.length - (L.dropWhile (fun d => decide (d = 0))).length) + 1 := by omega
      rw [this, pow_succ]
      ring
    · simp [List.dropWhile_cons, hd]

/-- Value and length of the fraction digits written by `fmtF`. -/
theorem fracDigits_spec (k f : Nat) (hf : f < 10 ^ k) :
    (fracDigits k f).length ≤ k ∧
    (∀ c ∈ fracDigits k f, isDigit c = true) ∧
    digitsVal (fracDigits k f) * 10 ^ (k - (fracDigits k f).length) = f := by
  have h1 := ofDigits_dropWhile_zero
    (Nat.digits 10 f ++ List.replicate (k - (Nat.digits 10 f).length) 0)
  rw [padded_length k f hf, padded_ofDigits] at h1
  have hlt : ∀ d ∈ (Nat.digits 10 f ++ List.replicate (k - (Nat.digits 10 f).length) 0).dropWhile
      (fun d => decide (d = 0)), d < 10 :=
    fun d hd => padded_lt k f d ((List.dropWhile_sublist _).subset hd)
  have hlen : (fracDigits k f).length =
      ((Nat.digits 10 f ++ List.replicate (k - (Nat.digits 10 f).length) 0).dropWhile
        (fun d => decide (d = 0))).length := by
    simp [fracDigits]
  refine ⟨by rw [hlen]; exact h1.1, all_isDigit_reverse_map _ hlt, ?_⟩
  rw [hlen]
  unfold fracDigits
  rw [digitsVal_reverse_map _ hlt]
  exact h1.2.symm

/-! ## Rounding -/

/-- Rounding depends on the quotient only. -/
theorem roundMag_mul_right (A B c : Nat) (hc : 0 < c) :
    roundMag (A * c) (B * c) = roundMag A B := by
  simp only [roundMag]
  rw [Nat.mul_div_mul_right A B hc]
  have hD : B * c * 2 ^ (bitLen (A / B) - 53) = B * 2 ^ (bitLen (A / B) - 53) * c := by ring
  rw [hD, Nat.mul_div_mul_right _ _ hc, Nat.mul_mod_mul_right]
  have e1 : 2 * (A % (B * 2 ^ (bitLen (A / B) - 53)) * c) >
      B * 2 ^ (bitLen (A / B) - 53) * c ↔
      2 * (A % (B * 2 ^ (bitLen (A / B) - 53))) > B * 2 ^ (bitLen (A / B) - 53) := by
    rw [← Nat.mul_assoc]
    exact Nat.mul_lt_mul_right hc
  have e2 : 2 * (A % (B * 2 ^ (bitLen (A / B) - 53)) * c) =
      B * 2 ^ (bitLen (A / B) - 53) * c ↔
      2 * (A % (B * 2 ^ (bitLen (A / B) - 53))) = B * 2 ^ (bitLen (A / B) - 53) := by
    rw [← Nat.mul_assoc]
    exact Nat.mul_left_inj (Nat.pos_iff_ne_zero.mp hc)
  simp only [e1, e2]

/-- A binary64 magnitude rounds to itself. -/
theorem roundMag_exact (S B : Nat) (hB : 0 < B) (hS : isMag64 S = true) :
    roundMag (S * B) B = S := by
  simp only [isMag64, Bool.and_eq_true, decide_eq_true_eq] at hS
  obtain ⟨q, hq⟩ := Nat.dvd_of_mod_eq_zero hS.2
  simp only [roundMag]
  rw [Nat.mul_div_cancel _ hB]
  have hD : 0 < B * 2 ^ (bitLen S - 53) := Nat.mul_pos hB (Nat.pow_pos (by norm_num))
  have hA : S * B = q * (B * 2 ^ (bitLen S - 53)) := by
    conv_lhs => rw [hq]
    ring
  rw [hA, Nat.mul_div_cancel _ hD, Nat.mul_mod_left]
  rw [if_neg (by omega)]
  conv_rhs => rw [hq]
  ring

/-! ## Reading back what `FormatFloat` writes -/

theorem readDecimal_int (ip : GoString) (h : ∀ c ∈ ip, isDigit c = true) (hne : ip ≠ []) :
    readDecimal ip = some (digitsVal ip, 0) := by
  unfold readDecimal
  rw [List.dropWhile_eq_nil_iff.mpr h, List.takeWhile_eq_self_iff.mpr h]
  simp only [hne, if_false]

theorem readDecimal_frac (ip fp : GoString) (h1 : ∀ c ∈ ip, isDigit c = true)
    (h2 : ∀ c ∈ fp, isDigit c = true) (hne : ip ≠ [] ∨ fp ≠ []) :
    readDecimal (ip ++ 46 :: fp) = some (digitsVal (ip ++ fp), fp.length) := by
  unfold readDecimal
  have hdot : isDigit 46 = false := by decide
  rw [List.dropWhile_append_of_pos h1, List.takeWhile_append_of_pos h1]
  simp only [List.dropWhile_cons, List.takeWhile_cons, hdot, Bool.false_eq_true, if_false,
    List.append_nil]
  have hall : fp.all isDigit = true := List.all_eq_true.mpr h2
  rw [if_pos ⟨trivial, hall, hne⟩]

/-- The numeral `fmtF c k` denotes `c / 10^k`. -/
theorem readDecimal_fmtF (c k : Nat) :
    ∃ N k1 j, readDecimal (fmtF c k) = some (N, k1) ∧ N * 10 ^ j = c ∧ k1 + j = k := by
  have hf : c % 10 ^ k < 10 ^ k := Nat.mod_lt _ (Nat.pow_pos (by norm_num))
  obtain ⟨hlen, hdig, hval⟩ := fracDigits_spec k (c % 10 ^ k) hf
  have hc : 10 ^ k * (c / 10 ^ k) + c % 10 ^ k = c := Nat.div_add_mod c (10 ^ k)
  unfold fmtF
  by_cases hF : fracDigits k (c % 10 ^ k) = []
  · rw [if_pos hF, List.append_nil]
    refine ⟨c / 10 ^ k, 0, k, ?_, ?_, by omega⟩
    · rw [readDecimal_int _ (natDigits_isDigit _) (natDigits_ne_nil _), digitsVal_natDigits]
    · rw [hF] at hval
      simp only [digitsVal, List.foldl_nil, Nat.zero_mul] at hval
      rw [← hval, Nat.add_zero] at hc
      rw [Nat.mul_comm]; exact hc
  · rw [if_neg hF]
    refine ⟨digitsVal (natDigits (c / 10 ^ k) ++ fracDigits k (c % 10 ^ k)),
      (fracDigits k (c % 10 ^ k)).length, k - (fracDigits k (c % 10 ^ k)).length, ?_, ?_,
      by omega⟩
    · exact readDecimal_frac _ _ (natDigits_isDigit _) hdig (Or.inl (natDigits_ne_nil _))
    · rw [digitsVal_append, digitsVal_natDigits, Nat.add_mul, hval, Nat.mul_assoc,
        ← pow_add]
      have : (fracDigits k (c % 10 ^ k)).length + (k - (fracDigits k (c % 10 ^ k)).length) = k := by
        omega
      rw [this, Nat.mul_comm]; exact hc

/-- `ParseFloat` of `fmtF c k` is the rounding of `c / 10^k`. -/
theorem parseFloat_fmtF (c k S : Nat) (hS : isMag64 S = true)
    (hr : roundMag (c * 2 ^ 1074) (10 ^ k) = S) :
    parseFloat (fmtF c k) = some (.fin false S hS) := by
  obtain ⟨N, k1, j, hread, hN, hk⟩ := readDecimal_fmtF c k
  have hround : roundMag (N * 2 ^ 1074) (10 ^ k1) = S := by
    rw [← roundMag_mul_right _ _ (10 ^ j) (Nat.pow_pos (by norm_num)), ← pow_add, hk, ← hr,
      ← hN]
    congr 1
    ring
  unfold parseFloat
  rw [hread]
  simp only [hround, hS, dite_true]

/-- The decimal chosen by the shortest search reads back as the magnitude. -/
theorem roundMag_shortestDec (S : Nat) (hS : isMag64 S = true) :
    roundMag (shortestDec S * 2 ^ 1074) (10 ^ 1074) = S := by
  unfold shortestDec
  cases h : (shortestCandidates (S * 5 ^ 1074)).find?
      (fun c => decide (roundMag (c * 2 ^ 1074) (10 ^ 1074) = S)) with
  | some c =>
    have := List.find?_some h
    simpa using this
  | none =>
    simp only [Option.getD_none]
    have e : S * 5 ^ 1074 * 2 ^ 1074 = S * 10 ^ 1074 := by
      rw [Nat.mul_assoc, ← Nat.mul_pow]
    rw [e]
    exact roundMag_exact S _ (Nat.pow_pos (by norm_num)) hS

/-- `ParseFloat(FormatFloat(x))` is `x` for a finite non-negative `x`. -/
theorem parseFloat_formatFloat (m : Nat) (h : isMag64 m = true) :
    parseFloat (formatFloat (.fin false m h)) = some (.fin false m h) := by
  unfold formatFloat
  simp only [Bool.false_eq_true, if_false, List.nil_append]
  exact parseFloat_fmtF _ _ m h (roundMag_shortestDec m h)

theorem fmtF_isNumChar (c k : Nat) : ∀ b ∈ fmtF c k, isNumChar b = true := by
  have hf : c % 10 ^ k < 10 ^ k := Nat.mod_lt _ (Nat.pow_pos (by norm_num))
  obtain ⟨_, hdig, _⟩ := fracDigits_spec k (c % 10 ^ k) hf
  intro b hb
  unfold fmtF at hb
  rcases List.mem_append.mp hb with h | h
  · simp [isNumChar, natDigits_isDigit _ b h]
  · split_ifs at h with h0
    · simp at h
    · rcases List.mem_cons.mp h with rfl | h
      · decide
      · simp [isNumChar, hdig b h]

theorem fmtF_ne_nil (c k : Nat) : fmtF c k ≠ [] := by
  unfold fmtF
  simp [natDigits_ne_nil]

/-! ## Parsing the canonical text -/

theorem String_canonical (p : Period) : p.String = canonical p := by
  unfold Period.String canonical seg
  cases p.Years.isZero <;> cases p.Months.isZero <;> cases p.Weeks.isZero <;>
    cases p.Days.isZero <;> simp

theorem scan_numerals (ds : GoString) (h : ∀ b ∈ ds, isNumChar b = true) :
    ∀ (rest num : GoString) (neg : Bool) (p : Period),
      scan (ds ++ rest) num neg p = scan rest (num ++ ds) neg p := by
  induction ds with
  | nil => intro rest num neg p; simp
  | cons d ds ih =>
    intro rest num neg p
    rw [List.cons_append, scan_numChar d (h d (List.mem_cons_self _ _)),
      ih (fun b hb => h b (List.mem_cons_of_mem _ hb))]
    simp

theorem isZero_fin (s : Bool) (m : Nat) (h : isMag64 m = true) :
    (F64.fin s m h).isZero = true ↔ m = 0 := by
  cases s <;> simp [F64.isZero, F64.eq, F64.zero]

/-- The loop over one segment of the canonical text. -/
theorem scan_seg (x : F64) (hx : x.isFinite = true) (u : Byte) (hu : isUnit u = true)
    (rest : GoString) (p : Period) :
    scan (seg x u ++ rest) [] false p =
      scan rest [] false (if x.isZero = true then p else setField u x.abs p) := by
  unfold seg
  by_cases hz : x.isZero = true
  · simp [hz]
  · rw [if_neg hz, if_neg hz]
    cases x with
    | fin s m h =>
      simp only [F64.abs]
      rw [List.append_assoc, scan_numerals _ (by
        unfold formatFloat
        simp only [Bool.false_eq_true, if_false, List.nil_append]
        exact fmtF_isNumChar _ _), List.nil_append, List.singleton_append,
        scan_unit_some u hu _ _ _ _ (.fin false m h) (by
          unfold formatFloat
          simp only [Bool.false_eq_true, if_false, List.nil_append]
          exact fmtF_ne_nil _ _) (parseFloat_formatFloat m h)]
      simp
    | inf s => simp [F64.isFinite] at hx
    | nan => simp [F64.isFinite] at hx

theorem seg_chars (x : F64) (hx : x.isFinite = true) (u : Byte) (hu : isUnit u = true) :
    ∀ b ∈ seg x u, isNumChar b = true ∨ isUnit b = true := by
  intro b hb
  unfold seg at hb
  split_ifs at hb with hz
  · simp at hb
  · cases x with
    | fin s m h =>
      simp only [F64.abs, formatFloat, Bool.false_eq_true, if_false, List.nil_append,
        List.mem_append, List.mem_singleton] at hb
      rcases hb with hb | rfl
      · exact Or.inl (fmtF_isNumChar _ _ b hb)
      · exact Or.inr hu
    | inf s => simp [F64.isFinite] at hx
    | nan => simp [F64.isFinite] at hx

theorem seg_length (x : F64) (hx : x.isFinite = true) (u : Byte) (hz : x.isZero = false) :
    2 ≤ (seg x u).length := by
  unfold seg
  rw [if_neg (by simp [hz])]
  cases x with
  | fin s m h =>
    simp only [F64.abs, formatFloat, Bool.false_eq_true, if_false, List.nil_append,
      List.length_append, List.length_singleton]
    have := List.length_pos.mpr (fmtF_ne_nil (shortestDec m) 1074)
    omega
  | inf s => simp [F64.isFinite] at hx
  | nan => simp [F64.isFinite] at hx

theorem abs_of_isZero (x : F64) (hx : x.isFinite = true) (hz : x.isZero = true) :
    x.abs = F64.zero := by
  cases x with
  | fin s m h =>
    have hm : m = 0 := (isZero_fin s m h).mp hz
    subst hm
    rfl
  | inf s => simp [F64.isFinite] at hx
  | nan => simp [F64.isFinite] at hx

/-- `Parse` reads the canonical text of a finite period back as its absolute value. -/
theorem Parse_String_abs (p0 p : Period) (hp : p.isFinite = true) :
    p0.Parse p.String = (p.abs, none) := by
  obtain ⟨Y, M, W, D⟩ := p
  simp only [Period.isFinite, Bool.and_eq_true] at hp
  obtain ⟨⟨⟨hY, hM⟩, hW⟩, hD⟩ := hp
  rw [String_canonical]
  unfold canonical
  simp only
  split_ifs with hz
  · obtain ⟨zY, zM, zW, zD⟩ := hz
    have : Period.abs ⟨Y, M, W, D⟩ = Period.zero := by
      simp only [Period.abs, Period.zero, abs_of_isZero _ hY zY, abs_of_isZero _ hM zM,
        abs_of_isZero _ hW zW, abs_of_isZero _ hD zD]
    rw [this, Parse_eq_scan p0 _ (by decide) (by decide)]
    decide!
  · have hchars : ∀ b ∈ seg Y 89 ++ seg M 77 ++ seg W 87 ++ seg D 68,
        isNumChar b = true ∨ isUnit b = true := by
      intro b hb
      simp only [List.mem_append] at hb
      rcases hb with ((hb | hb) | hb) | hb
      · exact seg_chars Y hY 89 (by decide) b hb
      · exact seg_chars M hM 77 (by decide) b hb
      · exact seg_chars W hW 87 (by decide) b hb
      · exact seg_chars D hD 68 (by decide) b hb
    have hlen : 2 ≤ (seg Y 89 ++ seg M 77 ++ seg W 87 ++ seg D 68).length := by
      simp only [List.length_append]
      by_contra hcon
      apply hz
      refine ⟨?_, ?_, ?_, ?_⟩
      · by_contra h; have := seg_length Y hY 89 (by simpa using h); omega
      · by_contra h; have := seg_length M hM 77 (by simpa using h); omega
      · by_contra h; have := seg_length W hW 87 (by simpa using h); omega
      · by_contra h; have := seg_length D hD 68 (by simpa using h); omega
    have hP : bytes "P" ++ seg Y 89 ++ seg M 77 ++ seg W 87 ++ seg D 68 =
        80 :: (seg Y 89 ++ seg M 77 ++ seg W 87 ++ seg D 68) := by
      rw [bytes_P]; simp
    rw [hP, Parse_eq_scan p0 (80 :: (seg Y 89 ++ seg M 77 ++ seg W 87 ++ seg D 68))
      (by simp only [List.length_cons]; omega) rfl]
    have hT : beforeT (80 :: (seg Y 89 ++ seg M 77 ++ seg W 87 ++ seg D 68)) =
        80 :: (seg Y 89 ++ seg M 77 ++ seg W 87 ++ seg D 68) := by
      unfold beforeT
      rw [List.takeWhile_eq_self_iff]
      intro b hb
      rcases List.mem_cons.mp hb with rfl | hb
      · decide
      · have := hchars b hb
        simp only [ne_eq, decide_eq_true_eq]
        rintro rfl
        revert this
        decide
    rw [hT, List.drop_one, List.tail_cons]
    rw [List.append_assoc, List.append_assoc, scan_seg Y hY 89 (by decide),
      scan_seg M hM 77 (by decide), ← List.append_nil (seg D 68),
      scan_seg W hW 87 (by decide), scan_seg D hD 68 (by decide)]
    simp only [scan, Period.abs, Period.zero, setField]
    by_cases zY : Y.isZero = true <;> by_cases zM : M.isZero = true <;>
      by_cases zW : W.isZero = true <;> by_cases zD : D.isZero = true <;>
      simp [zY, zM, zW, zD, abs_of_isZero, hY, hM, hW, hD]

/-! ## Quoting -/

theorem escapeAscii_plain (b : Byte) (h1 : 32 ≤ b.val) (h2 : b.val < 127) (h3 : b ≠ 34)
    (h4 : b ≠ 92) : escapeAscii b = [b] := by
  unfold escapeAscii
  rw [if_neg (by rintro (h | h) <;> contradiction), if_pos ⟨h1, h2⟩]

theorem quoteBody_plain (nonAscii : GoString → GoString) (s : GoString)
    (h : ∀ b ∈ s, 32 ≤ b.val ∧ b.val < 127 ∧ b ≠ 34 ∧ b ≠ 92) : quoteBody nonAscii s = s := by
  induction s with
  | nil => rfl
  | cons c cs ih =>
    obtain ⟨h1, h2, h3, h4⟩ := h c (List.mem_cons_self _ _)
    rw [quoteBody, if_neg (by omega), escapeAscii_plain c h1 h2 h3 h4,
      ih (fun b hb => h b (List.mem_cons_of_mem _ hb))]
    rfl

theorem isNumChar_plain (b : Byte) (h : isNumChar b = true) :
    32 ≤ b.val ∧ b.val < 127 ∧ b ≠ 34 ∧ b ≠ 92 := by
  simp only [isNumChar, isDigit, Bool.or_eq_true, Bool.and_eq_true, decide_eq_true_eq] at h
  rcases h with ⟨h1, h2⟩ | rfl
  · refine ⟨by omega, by omega, ?_, ?_⟩
    · intro e
      have : b.val = 34 := by rw [e]; rfl
      omega
    · intro e
      have : b.val = 92 := by rw [e]; rfl
      omega
  · decide

theorem formatFloat_abs_plain (x : F64) :
    ∀ b ∈ formatFloat x.abs, 32 ≤ b.val ∧ b.val < 127 ∧ b ≠ 34 ∧ b ≠ 92 := by
  cases x with
  | fin s m h =>
    intro b hb
    simp only [F64.abs, formatFloat, Bool.false_eq_true, if_false, List.nil_append] at hb
    exact isNumChar_plain b (fmtF_isNumChar _ _ b hb)
  | inf s => simp only [F64.abs, formatFloat]; decide!
  | nan => simp only [F64.abs, formatFloat]; decide!

theorem seg_plain (x : F64) (u : Byte) (hu : isUnit u = true) :
    ∀ b ∈ seg x u, 32 ≤ b.val ∧ b.val < 127 ∧ b ≠ 34 ∧ b ≠ 92 := by
  intro b hb
  unfold seg at hb
  split_ifs at hb with hz
  · simp at hb
  · rcases List.mem_append.mp hb with hb | hb
    · exact formatFloat_abs_plain x b hb
    · rw [List.mem_singleton] at hb
      subst hb
      have h : b = 89 ∨ b = 77 ∨ b = 87 ∨ b = 68 := (unit_not_others b hu).2.2.2
      rcases h with rfl | rfl | rfl | rfl <;> decide

theorem String_plain (p : Period) :
    ∀ b ∈ p.String, 32 ≤ b.val ∧ b.val < 127 ∧ b ≠ 34 ∧ b ≠ 92 := by
  rw [String_canonical]
  unfold canonical
  split_ifs with hz
  · decide!
  · intro b hb
    simp only [List.mem_append] at hb
    rcases hb with (((hb | hb) | hb) | hb) | hb
    · revert b; decide!
    · exact seg_plain _ 89 (by decide) b hb
    · exact seg_plain _ 77 (by decide) b hb
    · exact seg_plain _ 87 (by decide) b hb
    · exact seg_plain _ 68 (by decide) b hb

theorem sprintfQ_String (nonAscii : GoString → GoString) (p : Period) :
    sprintfQ nonAscii p.String = 34 :: p.String ++ [34] := by
  unfold sprintfQ
  rw [quoteBody_plain nonAscii _ (String_plain p)]

theorem unquote (s : GoString) :
    ((34 :: s ++ [34]).take ((34 :: s ++ [34]).length - 1)).drop 1 = s := by
  simp

theorem abs_eq_of_nonneg (x : F64) (hx : x.isFinite = true) (hn : x.nonneg = true) :
    x.abs.eq x = true := by
  cases x with
  | fin s m h =>
    simp only [F64.nonneg, Bool.or_eq_true, Bool.not_eq_true', beq_iff_eq] at hn
    simp only [F64.abs, F64.eq, beq_self_eq_true, Bool.true_and, Bool.or_eq_true, beq_iff_eq]
    rcases hn with h | h
    · exact Or.inl h.symm
    · exact Or.inr h
  | inf s => simp [F64.isFinite] at hx
  | nan => simp [F64.isFinite] at hx

theorem Period_abs_eq_of_nonneg (p : Period) (hfin : p.isFinite = true)
    (hnn : p.nonneg = true) : p.abs.eq p = true := by
  simp only [Period.isFinite, Bool.and_eq_true] at hfin
  simp only [Period.nonneg, Bool.and_eq_true] at hnn
  obtain ⟨⟨⟨f1, f2⟩, f3⟩, f4⟩ := hfin
  obtain ⟨⟨⟨n1, n2⟩, n3⟩, n4⟩ := hnn
  simp only [Period.eq, Period.abs, Bool.and_eq_true]
  exact ⟨⟨⟨abs_eq_of_nonneg _ f1 n1, abs_eq_of_nonneg _ f2 n2⟩, abs_eq_of_nonneg _ f3 n3⟩,
    abs_eq_of_nonneg _ f4 n4⟩

/-! ## Segments in any order -/

theorem scan_sign (sign : Option Bool) (cs : GoString) (p : Period) :
    scan ((match sign with
      | none => []
      | some false => [43]
      | some true => [45]) ++ cs) [] false p = scan cs [] (sign = some true) p := by
  rcases sign with _ | _ | _
  · simp
  · simp [scan_plus]
  · simp [scan_minus]

theorem isDecimalNumeral_ne_nil (n : GoString) (h : isDecimalNumeral n = true) : n ≠ [] := by
  rintro rfl
  simp [isDecimalNumeral] at h

theorem isDecimalNumeral_chars (n : GoString) (h : isDecimalNumeral n = true) :
    ∀ b ∈ n, isNumChar b = true := by
  simp only [isDecimalNumeral, Bool.and_eq_true, List.all_eq_true] at h
  exact h.1.1

/-- The loop over one well-formed segment. -/
theorem scan_segment (g : Segment) (hu : isUnit g.unit = true)
    (hn : isDecimalNumeral g.numeral = true) (v : F64) (hv : g.value = some v)
    (rest : GoString) (p : Period) :
    scan (g.text ++ rest) [] false p = scan rest [] false (setField g.unit v p) := by
  unfold Segment.value at hv
  cases hp : parseFloat g.numeral with
  | none => rw [hp] at hv; simp at hv
  | some w =>
    rw [hp] at hv
    simp only [Option.some.injEq] at hv
    unfold Segment.text
    rw [List.append_assoc, List.append_assoc, scan_sign,
      scan_numerals _ (isDecimalNumeral_chars _ hn), List.nil_append, List.singleton_append,
      scan_unit_some g.unit hu _ _ _ _ w (isDecimalNumeral_ne_nil _ hn) hp, ← hv]
    simp

theorem scan_segments (gs : List Segment) :
    ∀ (p : Period) (rest : GoString),
      (∀ g ∈ gs, isUnit g.unit = true ∧ isDecimalNumeral g.numeral = true) →
      (∀ g ∈ gs, (parseFloat g.numeral).isSome = true) →
      scan ((gs.map Segment.text).flatten ++ rest) [] false p =
        scan rest [] false (applySegments p gs) := by
  induction gs with
  | nil => intro p rest _ _; rfl
  | cons g gs ih =>
    intro p rest hwf hr
    obtain ⟨hu, hn⟩ := hwf g (List.mem_cons_self _ _)
    have hsome := hr g (List.mem_cons_self _ _)
    obtain ⟨w, hw⟩ := Option.isSome_iff_exists.mp hsome
    have hv : g.value = some (if g.sign = some true then w.neg else w) := by
      unfold Segment.value; rw [hw]
    rw [List.map_cons, List.flatten_cons, List.append_assoc, scan_segment g hu hn _ hv,
      ih _ _ (fun g hg => hwf g (List.mem_cons_of_mem _ hg))
        (fun g hg => hr g (List.mem_cons_of_mem _ hg))]
    simp only [applySegments, List.foldl_cons, hv, Option.getD_some]

theorem field_setField_same (u : Byte) (hu : isUnit u = true) (v : F64) (p : Period) :
    (setField u v p).field u = v := by
  have h : u = 89 ∨ u = 77 ∨ u = 87 ∨ u = 68 := (unit_not_others u hu).2.2.2
  rcases h with rfl | rfl | rfl | rfl <;> rfl

theorem field_setField_other (u w : Byte) (hu : isUnit u = true) (hw : isUnit w = true)
    (hne : u ≠ w) (v : F64) (p : Period) : (setField u v p).field w = p.field w := by
  have h : u = 89 ∨ u = 77 ∨ u = 87 ∨ u = 68 := (unit_not_others u hu).2.2.2
  have h2 : w = 89 ∨ w = 77 ∨ w = 87 ∨ w = 68 := (unit_not_others w hw).2.2.2
  rcases h with rfl | rfl | rfl | rfl <;> rcases h2 with rfl | rfl | rfl | rfl <;>
    first | rfl | exact absurd rfl hne

theorem Period_ext_field (p q : Period)
    (h : ∀ u : Byte, isUnit u = true → p.field u = q.field u) : p = q := by
  obtain ⟨a, b, c, d⟩ := p
  obtain ⟨a2, b2, c2, d2⟩ := q
  have h1 : a = a2 := h 89 (by decide)
  have h2 : b = b2 := h 77 (by decide)
  have h3 : c = c2 := h 87 (by decide)
  have h4 : d = d2 := h 68 (by decide)
  rw [h1, h2, h3, h4]

theorem applySegments_field_absent (gs : List Segment) :
    ∀ (p : Period) (u : Byte), isUnit u = true → (∀ g ∈ gs, isUnit g.unit = true) →
      u ∉ gs.map Segment.unit → (applySegments p gs).field u = p.field u := by
  induction gs with
  | nil => intro p u _ _ _; rfl
  | cons g gs ih =>
    intro p u hu hall hnot
    simp only [List.map_cons, List.mem_cons, not_or] at hnot
    simp only [applySegments, List.foldl_cons]
    have := ih (setField g.unit (g.value.getD F64.nan) p) u hu
      (fun g hg => hall g (List.mem_cons_of_mem _ hg)) hnot.2
    simp only [applySegments] at this
    rw [this, field_setField_other _ _ (hall g (List.mem_cons_self _ _)) hu
      (fun e => hnot.1 e.symm)]

theorem applySegments_field_present (gs : List Segment) :
    ∀ (p : Period), (∀ g ∈ gs, isUnit g.unit = true) → (gs.map Segment.unit).Nodup →
      ∀ g ∈ gs, (applySegments p gs).field g.unit = g.value.getD F64.nan := by
  induction gs with
  | nil => intro p _ _ g hg; simp at hg
  | cons a gs ih =>
    intro p hall hnd g hg
    simp only [List.map_cons, List.nodup_cons] at hnd
    have hrest : ∀ g ∈ gs, isUnit g.unit = true := fun g hg => hall g (List.mem_cons_of_mem _ hg)
    rcases List.mem_cons.mp hg with rfl | hg
    · have := applySegments_field_absent gs (setField g.unit (g.value.getD F64.nan) p) g.unit
        (hall g (List.mem_cons_self _ _)) hrest hnd.1
      simp only [applySegments, List.foldl_cons] at this ⊢
      rw [this, field_setField_same _ (hall g (List.mem_cons_self _ _))]
    · have := ih (setField a.unit (a.value.getD F64.nan) p) hrest hnd.2 g hg
      simp only [applySegments, List.foldl_cons] at this ⊢
      exact this

theorem applySegments_perm (gs1 gs2 : List Segment) (hperm : gs1.Perm gs2)
    (hall : ∀ g ∈ gs2, isUnit g.unit = true) (hnd : (gs2.map Segment.unit).Nodup)
    (p : Period) : applySegments p gs1 = applySegments p gs2 := by
  have hall1 : ∀ g ∈ gs1, isUnit g.unit = true := fun g hg => hall g (hperm.subset hg)
  have hnd1 : (gs1.map Segment.unit).Nodup := (hperm.map Segment.unit).nodup_iff.mpr hnd
  apply Period_ext_field
  intro u hu
  by_cases hmem : u ∈ gs2.map Segment.unit
  · obtain ⟨g, hg, rfl⟩ := List.mem_map.mp hmem
    rw [applySegments_field_present gs2 p hall hnd g hg,
      applySegments_field_present gs1 p hall1 hnd1 g (hperm.symm.subset hg)]
  · have hmem1 : u ∉ gs1.map Segment.unit := fun h => hmem ((hperm.map Segment.unit).subset h)
    rw [applySegments_field_absent gs2 p u hu hall hmem,
      applySegments_field_absent gs1 p u hu hall1 hmem1]

theorem segment_text_chars (g : Segment) (hu : isUnit g.unit = true)
    (hn : isDecimalNumeral g.numeral = true) : ∀ b ∈ g.text, b ≠ 84 := by
  intro b hb
  obtain ⟨sign, numeral, unit⟩ := g
  unfold Segment.text at hb
  simp only [List.mem_append, List.mem_singleton] at hb
  rcases hb with (hb | hb) | rfl
  · rcases sign with _ | _ | _
    · simp at hb
    · simp only [List.mem_singleton] at hb; subst hb; decide
    · simp only [List.mem_singleton] at hb; subst hb; decide
  · have := isDecimalNumeral_chars _ hn b hb
    rintro rfl
    revert this; decide
  · rintro h
    have hu2 : isUnit b = true := hu
    rw [h] at hu2
    revert hu2; decide

theorem segment_text_length (g : Segment) (hn : isDecimalNumeral g.numeral = true) :
    2 ≤ g.text.length := by
  unfold Segment.text
  have := List.length_pos.mpr (isDecimalNumeral_ne_nil _ hn)
  simp only [List.length_append, List.length_singleton]
  omega

/-- `Parse` of a well-formed text stores the values of the segments one after the other. -/
theorem Parse_segmentsText (p0 : Period) (gs : List Segment) (hwf : wellFormedSegments gs)
    (hr : ∀ g ∈ gs, (parseFloat g.numeral).isSome = true) :
    p0.Parse (segmentsText gs) = (applySegments Period.zero gs, none) := by
  obtain ⟨hne, hall, hnd⟩ := hwf
  have hlen : 2 ≤ (segmentsText gs).length := by
    cases gs with
    | nil => exact absurd rfl hne
    | cons g gs =>
      have := segment_text_length g (hall g (List.mem_cons_self _ _)).2
      simp only [segmentsText, List.map_cons, List.flatten_cons, List.length_cons,
        List.length_append]
      omega
  have hT : beforeT (segmentsText gs) = segmentsText gs := by
    unfold beforeT
    rw [List.takeWhile_eq_self_iff]
    intro b hb
    simp only [ne_eq, decide_eq_true_eq]
    unfold segmentsText at hb
    rcases List.mem_cons.mp hb with rfl | hb
    · decide
    · obtain ⟨t, ht, hbt⟩ := List.mem_flatten.mp hb
      obtain ⟨g, hg, rfl⟩ := List.mem_map.mp ht
      exact segment_text_chars g (hall g hg).1 (hall g hg).2 b hbt
  rw [Parse_eq_scan p0 _ hlen rfl, hT]
  have := scan_segments gs Period.zero [] hall hr
  rw [List.append_nil] at this
  simp only [segmentsText, List.drop_one, List.tail_cons]
  rw [this]
  rfl

/-! ## The result of rounding is a binary64 magnitude unless it overflows -/

theorem bitLenAux_le_iff (fuel : Nat) : ∀ n k : Nat, n ≤ fuel →
    (bitLenAux fuel n ≤ k ↔ n < 2 ^ k) := by
  induction fuel with
  | zero =>
    intro n k hn
    have : n = 0 := by omega
    subst this
    simp [bitLenAux]
  | succ fuel ih =>
    intro n k hn
    unfold bitLenAux
    by_cases h0 : n = 0
    · subst h0; simp
    · rw [if_neg h0]
      cases k with
      | zero => simp; omega
      | succ k =>
        rw [Nat.add_le_add_iff_right, ih (n / 2) k (by omega), pow_succ]
        omega

theorem bitLen_le_iff (n k : Nat) : bitLen n ≤ k ↔ n < 2 ^ k :=
  bitLenAux_le_iff n n k (Nat.le_refl n)

theorem isMag64_of_mul_pow (m s : Nat) (hm : m ≤ 2 ^ 53) (hlt : m * 2 ^ s < 2 ^ 2098) :
    isMag64 (m * 2 ^ s) = true := by
  simp only [isMag64, Bool.and_eq_true, decide_eq_true_eq]
  refine ⟨hlt, ?_⟩
  apply Nat.mod_eq_zero_of_dvd
  rcases Nat.lt_or_eq_of_le hm with h | h
  · have h1 : bitLen (m * 2 ^ s) ≤ 53 + s := by
      rw [bitLen_le_iff, pow_add]
      exact Nat.mul_lt_mul_of_lt_of_le h (Nat.le_refl _) (Nat.pow_pos (by norm_num))
    exact Dvd.dvd.mul_left (pow_dvd_pow 2 (by omega)) m
  · subst h
    have h1 : bitLen (2 ^ 53 * 2 ^ s) ≤ 54 + s := by
      rw [bitLen_le_iff, ← pow_add]
      exact Nat.pow_lt_pow_right (by norm_num) (by omega)
    generalize bitLen (2 ^ 53 * 2 ^ s) = L at h1 ⊢
    rw [← pow_add]
    exact pow_dvd_pow 2 (by omega)

theorem roundMag_quotient_le (A B : Nat) :
    A / (B * 2 ^ (bitLen (A / B) - 53)) < 2 ^ 53 := by
  rw [← Nat.div_div_eq_div_mul]
  rw [Nat.div_lt_iff_lt_mul (Nat.pow_pos (by norm_num)), ← pow_add]
  by_cases h : bitLen (A / B) ≤ 53
  · have h2 := (bitLen_le_iff _ _).mp h
    have : bitLen (A / B) - 53 = 0 := by omega
    rw [this]; exact h2
  · have : 53 + (bitLen (A / B) - 53) = bitLen (A / B) := by omega
    rw [this]
    exact (bitLen_le_iff _ _).mp (Nat.le_refl _)

/-- Unless it overflows, a rounded value is a binary64 magnitude. -/
theorem isMag64_roundMag (A B : Nat) (h : roundMag A B < 2 ^ 2098) :
    isMag64 (roundMag A B) = true := by
  have hq := roundMag_quotient_le A B
  unfold roundMag at h ⊢
  simp only at h ⊢
  split_ifs at h ⊢ with hc
  · exact isMag64_of_mul_pow _ _ (by omega) h
  · exact isMag64_of_mul_pow _ _ (by omega) h

/-- `ParseFloat` fails only on a syntax error or on overflow. -/
theorem parseFloat_eq_none_iff (s : GoString) :
    parseFloat s = none ↔
      readDecimal s = none ∨
      ∃ N k, readDecimal s = some (N, k) ∧ 2 ^ 2098 ≤ roundMag (N * 2 ^ 1074) (10 ^ k) := by
  unfold parseFloat
  cases hrd : readDecimal s with
  | none => simp
  | some v =>
    obtain ⟨N, k⟩ := v
    simp only [Option.some.injEq, Prod.mk.injEq, false_or, reduceCtorEq]
    constructor
    · intro h
      refine ⟨N, k, ⟨rfl, rfl⟩, ?_⟩
      by_contra hcon
      have hm := isMag64_roundMag (N * 2 ^ 1074) (10 ^ k) (by omega)
      rw [dif_pos hm] at h
      exact absurd h (by simp)
    · rintro ⟨N2, k2, ⟨rfl, rfl⟩, hov⟩
      have hm : ¬ isMag64 (roundMag (N * 2 ^ 1074) (10 ^ k)) = true := by
        simp only [isMag64, Bool.and_eq_true, decide_eq_true_eq, not_and]
        intro hlt
        omega
      rw [dif_neg hm]

/-! ## The cases of `TestPeriodParse` and `TestParsePeriod` -/

theorem test_Parse_basic :
    Period.zero.Parse (bytes "P1Y2M3W4D") =
      (⟨F64.one, F64.two, F64.three, F64.four⟩, none) := by decide!

theorem test_Parse_zero : Period.zero.Parse (bytes "P0D") = (Period.zero, none) := by decide!

theorem test_Parse_decimal :
    Period.zero.Parse (bytes "P1.5Y2.5M") =
      (⟨F64.onePointFive, F64.twoPointFive, F64.zero, F64.zero⟩, none) := by decide!

theorem test_Parse_negative :
    Period.zero.Parse (bytes "P-1Y-2M-3W-4D") =
      (⟨F64.one.neg, F64.two.neg, F64.three.neg, F64.four.neg⟩, none) := by decide!

theorem test_Parse_time_component :
    Period.zero.Parse (bytes "P1YT2H") =
      (⟨F64.one, F64.zero, F64.zero, F64.zero⟩, none) := by decide!

theorem test_Parse_invalid_format :
    Period.zero.Parse (bytes "1Y2M") =
      (Period.zero, some (bytes "invalid period format: must start with P")) := by decide!

theorem test_Parse_invalid_character :
    Period.zero.Parse (bytes "P1Y2X") =
      (⟨F64.one, F64.zero, F64.zero, F64.zero⟩,
        some (bytes "invalid character in period: X")) := by decide!

theorem test_ParsePeriod_valid :
    ParsePeriod (bytes "P1Y2M3W4D") =
      (some ⟨F64.one, F64.two, F64.three, F64.four⟩, none) := by decide!

theorem test_ParsePeriod_invalid :
    ParsePeriod (bytes "invalid") =
      (none, some (bytes "invalid period format: must start with P")) := by decide!

/-! ## The loop state and the stores of the loop -/

theorem loopState_minus (cs num : GoString) (neg : Bool) (p : Period) :
    loopState (45 :: cs) (num, neg, p) = loopState cs (num, true, p) := by
  rw [loopState, if_pos rfl]

theorem loopState_plus (cs num : GoString) (neg : Bool) (p : Period) :
    loopState (43 :: cs) (num, neg, p) = loopState cs (num, false, p) := by
  rw [loopState, if_neg (by decide), if_pos rfl]

theorem numChar_not_others (c : Byte) (hc : isNumChar c = true) :
    c ≠ 45 ∧ c ≠ 43 ∧ ((48 ≤ c.val ∧ c.val ≤ 57) ∨ c = 46) := by
  have h3 : (48 ≤ c.val ∧ c.val ≤ 57) ∨ c = 46 := by
    simpa [isNumChar, isDigit] using hc
  refine ⟨?_, ?_, h3⟩
  · rintro rfl; revert hc; decide
  · rintro rfl; revert hc; decide

theorem bad_not_others (c : Byte) (hc : isPeriodChar c = false) :
    c ≠ 45 ∧ c ≠ 43 ∧ ¬ ((48 ≤ c.val ∧ c.val ≤ 57) ∨ c = 46) ∧
      ¬ (c = 89 ∨ c = 77 ∨ c = 87 ∨ c = 68) := by
  simp only [isPeriodChar, isDigit, isUnit, Bool.or_eq_false_iff, Bool.and_eq_false_iff,
    decide_eq_false_iff_not] at hc
  obtain ⟨⟨⟨⟨h1, h2⟩, h3⟩, h4⟩, ⟨⟨h5, h6⟩, h7⟩, h8⟩ := hc
  refine ⟨h4, h3, ?_, ?_⟩
  · rintro (h | h)
    · rcases h1 with h1 | h1 <;> omega
    · exact h2 h
  · rintro (h | h | h | h) <;> contradiction

theorem loopState_numChar (c : Byte) (hc : isNumChar c = true) (cs num : GoString)
    (neg : Bool) (p : Period) :
    loopState (c :: cs) (num, neg, p) = loopState cs (num ++ [c], neg, p) := by
  obtain ⟨h1, h2, h3⟩ := numChar_not_others c hc
  rw [loopState, if_neg h1, if_neg h2, if_pos h3]

theorem loopState_unit_empty (c : Byte) (hc : isUnit c = true) (cs : GoString) (neg : Bool)
    (p : Period) : loopState (c :: cs) ([], neg, p) = loopState cs ([], neg, p) := by
  obtain ⟨h1, h2, h3, h4⟩ := unit_not_others c hc
  rw [loopState, if_neg h1, if_neg h2, if_neg h3, if_pos h4, if_pos rfl]

theorem loopState_unit_some (c : Byte) (hc : isUnit c = true) (cs num : GoString)
    (neg : Bool) (p : Period) (v : F64) (hn : num ≠ []) (hv : parseFloat num = some v) :
    loopState (c :: cs) (num, neg, p) =
      loopState cs ([], false, setField c (if neg then v.neg else v) p) := by
  obtain ⟨h1, h2, h3, h4⟩ := unit_not_others c hc
  rw [loopState, if_neg h1, if_neg h2, if_neg h3, if_pos h4, if_neg hn, hv]

theorem loopState_unit_none (c : Byte) (hc : isUnit c = true) (cs num : GoString)
    (neg : Bool) (p : Period) (hn : num ≠ []) (hv : parseFloat num = none) :
    loopState (c :: cs) (num, neg, p) = none := by
  obtain ⟨h1, h2, h3, h4⟩ := unit_not_others c hc
  rw [loopState, if_neg h1, if_neg h2, if_neg h3, if_pos h4, if_neg hn, hv]

theorem loopState_bad_char (c : Byte) (hc : isPeriodChar c = false) (cs num : GoString)
    (neg : Bool) (p : Period) : loopState (c :: cs) (num, neg, p) = none := by
  obtain ⟨h1, h2, h3, h4⟩ := bad_not_others c hc
  rw [loopState, if_neg h1, if_neg h2, if_neg h3, if_neg h4]

theorem completions_minus (cs num : GoString) (neg : Bool) :
    completions (45 :: cs) num neg = completions cs num true := by
  rw [completions, if_pos rfl]

theorem completions_plus (cs num : GoString) (neg : Bool) :
    completions (43 :: cs) num neg = completions cs num false := by
  rw [completions, if_neg (by decide), if_pos rfl]

theorem completions_numChar (c : Byte) (hc : isNumChar c = true) (cs num : GoString)
    (neg : Bool) : completions (c :: cs) num neg = completions cs (num ++ [c]) neg := by
  obtain ⟨h1, h2, h3⟩ := numChar_not_others c hc
  rw [completions, if_neg h1, if_neg h2, if_pos h3]

theorem completions_unit_empty (c : Byte) (hc : isUnit c = true) (cs : GoString)
    (neg : Bool) : completions (c :: cs) [] neg = completions cs [] neg := by
  obtain ⟨h1, h2, h3, h4⟩ := unit_not_others c hc
  rw [completions, if_neg h1, if_neg h2, if_neg h3, if_pos h4, if_pos rfl]

theorem completions_unit_some (c : Byte) (hc : isUnit c = true) (cs num : GoString)
    (neg : Bool) (v : F64) (hn : num ≠ []) (hv : parseFloat num = some v) :
    completions (c :: cs) num neg =
      (c, if neg then v.neg else v) :: completions cs [] false := by
  obtain ⟨h1, h2, h3, h4⟩ := unit_not_others c hc
  rw [completions, if_neg h1, if_neg h2, if_neg h3, if_pos h4, if_neg hn, hv]

theorem completions_unit_none (c : Byte) (hc : isUnit c = true) (cs num : GoString)
    (neg : Bool) (hn : num ≠ []) (hv : parseFloat num = none) :
    completions (c :: cs) num neg = [] := by
  obtain ⟨h1, h2, h3, h4⟩ := unit_not_others c hc
  rw [completions, if_neg h1, if_neg h2, if_neg h3, if_pos h4, if_neg hn, hv]

theorem completions_bad_char (c : Byte) (hc : isPeriodChar c = false) (cs num : GoString)
    (neg : Bool) : completions (c :: cs) num neg = [] := by
  obtain ⟨h1, h2, h3, h4⟩ := bad_not_others c hc
  rw [completions, if_neg h1, if_neg h2, if_neg h3, if_neg h4]

/-- Once the loop has read `a` without returning, it goes on from the state reached. -/
theorem scan_append_of_loopState (a : GoString) : ∀ (num : GoString) (neg : Bool) (p : Period)
    (st : GoString × Bool × Period) (b : GoString), loopState a (num, neg, p) = some st →
    scan (a ++ b) num neg p = scan b st.1 st.2.1 st.2.2 := by
  induction a with
  | nil =>
    intro num neg p st b h
    simp only [loopState, Option.some.injEq] at h
    subst h; rfl
  | cons c a ih =>
    intro num neg p st b h
    rw [List.cons_append]
    rcases byte_cases c with rfl | rfl | hc | hc | hc
    · rw [loopState_minus] at h; rw [scan_minus]; exact ih _ _ _ _ _ h
    · rw [loopState_plus] at h; rw [scan_plus]; exact ih _ _ _ _ _ h
    · rw [loopState_numChar c hc] at h; rw [scan_numChar c hc]; exact ih _ _ _ _ _ h
    · by_cases hn : num = []
      · subst hn
        rw [loopState_unit_empty c hc] at h; rw [scan_unit_empty c hc]; exact ih _ _ _ _ _ h
      · cases hp : parseFloat num with
        | none => rw [loopState_unit_none c hc _ _ _ _ hn hp] at h; simp at h
        | some v =>
          rw [loopState_unit_some c hc _ _ _ _ v hn hp] at h
          rw [scan_unit_some c hc _ _ _ _ v hn hp]
          exact ih _ _ _ _ _ h
    · rw [loopState_bad_char c hc] at h; simp at h

/-- The loop succeeds exactly when it reads the whole text without returning, and then the
receiver is the one of the final state. -/
theorem scan_of_loopState_some (cs : GoString) (num : GoString) (neg : Bool) (p : Period)
    (st : GoString × Bool × Period) (h : loopState cs (num, neg, p) = some st) :
    scan cs num neg p = (st.2.2, none) := by
  have := scan_append_of_loopState cs num neg p st [] h
  rw [List.append_nil] at this
  rw [this]; rfl

theorem loopState_append (a : GoString) : ∀ (st : GoString × Bool × Period) (b : GoString),
    loopState (a ++ b) st = (loopState a st).bind (loopState b) := by
  induction a with
  | nil => intro st b; rfl
  | cons c a ih =>
    rintro ⟨num, neg, p⟩ b
    rw [List.cons_append]
    rcases byte_cases c with rfl | rfl | hc | hc | hc
    · rw [loopState_minus, loopState_minus]; exact ih _ _
    · rw [loopState_plus, loopState_plus]; exact ih _ _
    · rw [loopState_numChar c hc, loopState_numChar c hc]; exact ih _ _
    · by_cases hn : num = []
      · subst hn
        rw [loopState_unit_empty c hc, loopState_unit_empty c hc]; exact ih _ _
      · cases hp : parseFloat num with
        | none =>
          rw [loopState_unit_none c hc _ _ _ _ hn hp, loopState_unit_none c hc _ _ _ _ hn hp]
          rfl
        | some v =>
          rw [loopState_unit_some c hc _ _ _ _ v hn hp,
            loopState_unit_some c hc _ _ _ _ v hn hp]
          exact ih _ _
    · rw [loopState_bad_char c hc, loopState_bad_char c hc]; rfl

/-- A failing loop returns at one byte `c` of the text: it has read everything before `c`
without returning, the receiver it returns is the one of the state it had reached there, and
`c` is either a byte outside the grammar or a unit letter met with a buffer `ParseFloat`
rejects. -/
theorem scan_error_split (cs : GoString) : ∀ (num : GoString) (neg : Bool) (p : Period),
    (scan cs num neg p).2 ≠ none →
    ∃ (a : GoString) (c : Byte) (b : GoString) (num2 : GoString) (neg2 : Bool),
      cs = a ++ c :: b ∧
      loopState a (num, neg, p) = some (num2, neg2, (scan cs num neg p).1) ∧
      ((isPeriodChar c = false ∧
          (scan cs num neg p).2 = some (errInvalidCharacter c)) ∨
        (isUnit c = true ∧ num2 ≠ [] ∧ parseFloat num2 = none ∧
          (scan cs num neg p).2 = some (errInvalidNumber num2))) := by
  induction cs with
  | nil => intro num neg p h; simp [scan] at h
  | cons c cs ih =>
    intro num neg p h
    have step : ∀ (n2 : GoString) (g2 : Bool) (p2 : Period),
        scan (c :: cs) num neg p = scan cs n2 g2 p2 →
        (∀ a : GoString, loopState (c :: a) (num, neg, p) = loopState a (n2, g2, p2)) →
        ∃ (a : GoString) (c2 : Byte) (b : GoString) (num2 : GoString) (neg2 : Bool),
          c :: cs = a ++ c2 :: b ∧
          loopState a (num, neg, p) = some (num2, neg2, (scan (c :: cs) num neg p).1) ∧
          ((isPeriodChar c2 = false ∧
              (scan (c :: cs) num neg p).2 = some (errInvalidCharacter c2)) ∨
            (isUnit c2 = true ∧ num2 ≠ [] ∧ parseFloat num2 = none ∧
              (scan (c :: cs) num neg p).2 = some (errInvalidNumber num2))) := by
      intro n2 g2 p2 hs hl
      rw [hs] at h ⊢
      obtain ⟨a, c2, b, num2, neg2, hsplit, hst, hcase⟩ := ih n2 g2 p2 h
      exact ⟨c :: a, c2, b, num2, neg2, by rw [hsplit]; rfl, by rw [hl a]; exact hst, hcase⟩
    rcases byte_cases c with rfl | rfl | hc | hc | hc
    · exact step _ _ _ (scan_minus _ _ _ _) (fun a => loopState_minus a _ _ _)
    · exact step _ _ _ (scan_plus _ _ _ _) (fun a => loopState_plus a _ _ _)
    · exact step _ _ _ (scan_numChar c hc _ _ _ _) (fun a => loopState_numChar c hc a _ _ _)
    · by_cases hn : num = []
      · subst hn
        exact step _ _ _ (scan_unit_empty c hc _ _ _)
          (fun a => loopState_unit_empty c hc a _ _)
      · cases hp : parseFloat num with
        | none =>
          refine ⟨[], c, cs, num, neg, rfl, ?_, Or.inr ⟨hc, hn, hp, ?_⟩⟩
          · rw [scan_unit_none c hc _ _ _ _ hn hp]; rfl
          · rw [scan_unit_none c hc _ _ _ _ hn hp]
        | some v =>
          exact step _ _ _ (scan_unit_some c hc _ _ _ _ v hn hp)
            (fun a => loopState_unit_some c hc a _ _ _ v hn hp)
    · refine ⟨[], c, cs, num, neg, rfl, ?_, Or.inl ⟨hc, ?_⟩⟩
      · rw [scan_bad_char c hc]; rfl
      · rw [scan_bad_char c hc]

/-- The receiver the loop returns is the receiver it started from after the stores of the
loop, whether it ends with an error or not. -/
theorem scan_fst_eq_foldl (cs : GoString) : ∀ (num : GoString) (neg : Bool) (p : Period),
    (scan cs num neg p).1 =
      (completions cs num neg).foldl (fun q e => setField e.1 e.2 q) p := by
  induction cs with
  | nil => intro num neg p; rfl
  | cons c cs ih =>
    intro num neg p
    rcases byte_cases c with rfl | rfl | hc | hc | hc
    · rw [scan_minus, completions_minus]; exact ih _ _ _
    · rw [scan_plus, completions_plus]; exact ih _ _ _
    · rw [scan_numChar c hc, completions_numChar c hc]; exact ih _ _ _
    · by_cases hn : num = []
      · subst hn
        rw [scan_unit_empty c hc, completions_unit_empty c hc]; exact ih _ _ _
      · cases hp : parseFloat num with
        | none =>
          rw [scan_unit_none c hc _ _ _ _ hn hp, completions_unit_none c hc _ _ _ hn hp]
          rfl
        | some v =>
          rw [scan_unit_some c hc _ _ _ _ v hn hp, completions_unit_some c hc _ _ _ v hn hp,
            List.foldl_cons]
          exact ih _ _ _
    · rw [scan_bad_char c hc, completions_bad_char c hc]; rfl

theorem completions_units (cs : GoString) : ∀ (num : GoString) (neg : Bool),
    ∀ e ∈ completions cs num neg, isUnit e.1 = true := by
  induction cs with
  | nil => intro num neg e he; simp [completions] at he
  | cons c cs ih =>
    intro num neg e he
    rcases byte_cases c with rfl | rfl | hc | hc | hc
    · rw [completions_minus] at he; exact ih _ _ e he
    · rw [completions_plus] at he; exact ih _ _ e he
    · rw [completions_numChar c hc] at he; exact ih _ _ e he
    · by_cases hn : num = []
      · subst hn
        rw [completions_unit_empty c hc] at he; exact ih _ _ e he
      · cases hp : parseFloat num with
        | none => rw [completions_unit_none c hc _ _ _ hn hp] at he; simp at he
        | some v =>
          rw [completions_unit_some c hc _ _ _ v hn hp] at he
          rcases List.mem_cons.mp he with rfl | he
          · exact hc
          · exact ih _ _ e he
    · rw [completions_bad_char c hc] at he; simp at he

/-- Every number the loop stores is finite. -/
theorem completions_finite (cs : GoString) : ∀ (num : GoString) (neg : Bool),
    ∀ e ∈ completions cs num neg, e.2.isFinite = true := by
  induction cs with
  | nil => intro num neg e he; simp [completions] at he
  | cons c cs ih =>
    intro num neg e he
    rcases byte_cases c with rfl | rfl | hc | hc | hc
    · rw [completions_minus] at he; exact ih _ _ e he
    · rw [completions_plus] at he; exact ih _ _ e he
    · rw [completions_numChar c hc] at he; exact ih _ _ e he
    · by_cases hn : num = []
      · subst hn
        rw [completions_unit_empty c hc] at he; exact ih _ _ e he
      · cases hp : parseFloat num with
        | none => rw [completions_unit_none c hc _ _ _ hn hp] at he; simp at he
        | some v =>
          rw [completions_unit_some c hc _ _ _ v hn hp] at he
          rcases List.mem_cons.mp he with rfl | he
          · have hv : v.isFinite = true := by
              unfold parseFloat at hp
              split at hp
              · simp at hp
              · split at hp
                · simp only [Option.some.injEq] at hp
                  rw [← hp]; rfl
                · simp at hp
            cases neg
            · simpa using hv
            · cases v <;> simp_all [F64.neg, F64.isFinite]
          · exact ih _ _ e he
    · rw [completions_bad_char c hc] at he; simp at he

/-- After a sequence of stores, a field holds the last value stored into it. -/
theorem foldl_setField_field (l : List (Byte × F64)) (hl : ∀ e ∈ l, isUnit e.1 = true)
    (p : Period) (u : Byte) (hu : isUnit u = true) :
    (l.foldl (fun q e => setField e.1 e.2 q) p).field u =
      match (l.filter (fun e => decide (e.1 = u))).getLast? with
      | some e => e.2
      | none => p.field u := by
  induction l using List.reverseRecOn with
  | nil => rfl
  | append_singleton l e ih =>
    have hl2 : ∀ e ∈ l, isUnit e.1 = true := fun x hx => hl x (List.mem_append_left _ hx)
    have he : isUnit e.1 = true := hl e (by simp)
    rw [List.foldl_append, List.foldl_cons, List.foldl_nil, List.filter_append]
    by_cases h : e.1 = u
    · subst h
      rw [field_setField_same _ he]
      simp
    · rw [field_setField_other _ _ he hu h, ih hl2]
      simp [h]

theorem foldl_setField_finite (l : List (Byte × F64)) (hl : ∀ e ∈ l, e.2.isFinite = true) :
    ∀ p : Period, p.isFinite = true →
      (l.foldl (fun q e => setField e.1 e.2 q) p).isFinite = true := by
  induction l with
  | nil => intro p hp; exact hp
  | cons e l ih =>
    intro p hp
    rw [List.foldl_cons]
    apply ih (fun x hx => hl x (List.mem_cons_of_mem _ hx))
    have he := hl e (List.mem_cons_self _ _)
    simp only [Period.isFinite, Bool.and_eq_true] at hp ⊢
    obtain ⟨⟨⟨h1, h2⟩, h3⟩, h4⟩ := hp
    unfold setField
    split_ifs <;> simp [*]

/-! ## Signs, trailing numerals and invalid numerals -/

theorem isSign_iff (c : Byte) : isSign c = true ↔ c = 43 ∨ c = 45 := by
  simp [isSign]

theorem pendingSign_aux (c : Byte) (w : GoString) (neg0 : Bool) :
    (match ((c :: w).filter isSign).getLast? with
      | some d => decide (d = 45)
      | none => neg0) =
    (match (w.filter isSign).getLast? with
      | some d => decide (d = 45)
      | none => if isSign c = true then decide (c = 45) else neg0) := by
  by_cases hc : isSign c = true
  · rw [List.filter_cons_of_pos hc, if_pos hc]
    cases hw : w.filter isSign with
    | nil => simp
    | cons x xs =>
      rw [List.getLast?_cons_cons]
      cases hl : (x :: xs).getLast? with
      | none => simp at hl
      | some y => rfl
  · rw [List.filter_cons_of_neg hc, if_neg hc]

/-- Through a stretch of text in which no number is completed, the buffer collects the
numeral bytes, the receiver stays as it is, and the flag is the last sign character. -/
theorem loopState_chunk (w : GoString) : ∀ (num0 : GoString) (neg0 : Bool) (p : Period)
    (st : GoString × Bool × Period),
    loopState w (num0, neg0, p) = some st → completions w num0 neg0 = [] →
    st.2.1 = (match (w.filter isSign).getLast? with
      | some d => decide (d = 45)
      | none => neg0) ∧ st.2.2 = p := by
  induction w with
  | nil =>
    intro num0 neg0 p st h _
    simp only [loopState, Option.some.injEq] at h
    subst h
    exact ⟨rfl, rfl⟩
  | cons c w ih =>
    intro num0 neg0 p st h hc0
    rw [pendingSign_aux]
    rcases byte_cases c with rfl | rfl | hc | hc | hc
    · rw [loopState_minus] at h
      rw [completions_minus] at hc0
      exact ih _ _ _ _ h hc0
    · rw [loopState_plus] at h
      rw [completions_plus] at hc0
      exact ih _ _ _ _ h hc0
    · rw [loopState_numChar c hc] at h
      rw [completions_numChar c hc] at hc0
      have hs : isSign c = false := by
        cases hsc : isSign c with
        | false => rfl
        | true =>
          rcases (isSign_iff c).mp hsc with rfl | rfl <;> exact absurd hc (by decide)
      rw [hs]
      exact ih _ _ _ _ h hc0
    · have hs : isSign c = false := by
        cases hsc : isSign c with
        | false => rfl
        | true =>
          rcases (isSign_iff c).mp hsc with rfl | rfl <;> exact absurd hc (by decide)
      rw [hs]
      by_cases hn : num0 = []
      · subst hn
        rw [loopState_unit_empty c hc] at h
        rw [completions_unit_empty c hc] at hc0
        exact ih _ _ _ _ h hc0
      · cases hp : parseFloat num0 with
        | none => rw [loopState_unit_none c hc _ _ _ _ hn hp] at h; simp at h
        | some v => rw [completions_unit_some c hc _ _ _ v hn hp] at hc0; simp at hc0
    · rw [loopState_bad_char c hc] at h; simp at h

/-- Signs and numeral bytes after the last unit letter change neither outcome nor receiver. -/
theorem scan_trailing (d : GoString) (hd : ∀ b ∈ d, isSign b = true ∨ isNumChar b = true) :
    ∀ (num : GoString) (neg : Bool) (p : Period), scan d num neg p = (p, none) := by
  induction d with
  | nil => intro num neg p; rfl
  | cons c d ih =>
    intro num neg p
    have hd2 : ∀ b ∈ d, isSign b = true ∨ isNumChar b = true :=
      fun b hb => hd b (List.mem_cons_of_mem _ hb)
    rcases hd c (List.mem_cons_self _ _) with hc | hc
    · rcases (isSign_iff c).mp hc with rfl | rfl
      · rw [scan_plus]; exact ih hd2 _ _ _
      · rw [scan_minus]; exact ih hd2 _ _ _
    · rw [scan_numChar c hc]; exact ih hd2 _ _ _

theorem scan_append_trailing (cs d : GoString)
    (hd : ∀ b ∈ d, isSign b = true ∨ isNumChar b = true) :
    ∀ (num : GoString) (neg : Bool) (p : Period), (scan cs num neg p).2 = none →
      scan (cs ++ d) num neg p = scan cs num neg p := by
  induction cs with
  | nil =>
    intro num neg p _
    rw [List.nil_append, scan_trailing d hd]; rfl
  | cons c cs ih =>
    intro num neg p h
    rw [List.cons_append]
    rcases byte_cases c with rfl | rfl | hc | hc | hc
    · rw [scan_minus] at h
      rw [scan_minus (cs ++ d), scan_minus cs]; exact ih _ _ _ h
    · rw [scan_plus] at h
      rw [scan_plus (cs ++ d), scan_plus cs]; exact ih _ _ _ h
    · rw [scan_numChar c hc] at h
      rw [scan_numChar c hc (cs ++ d), scan_numChar c hc cs]; exact ih _ _ _ h
    · by_cases hn : num = []
      · subst hn
        rw [scan_unit_empty c hc] at h
        rw [scan_unit_empty c hc (cs ++ d), scan_unit_empty c hc cs]; exact ih _ _ _ h
      · cases hp : parseFloat num with
        | none => rw [scan_unit_none c hc _ _ _ _ hn hp] at h; simp at h
        | some v =>
          rw [scan_unit_some c hc _ _ _ _ v hn hp] at h
          rw [scan_unit_some c hc (cs ++ d) _ _ _ v hn hp, scan_unit_some c hc cs _ _ _ v hn hp]
          exact ih _ _ _ h
    · rw [scan_bad_char c hc] at h; simp at h

/-- A text the loop reads without returning has no `T`. -/
theorem loopState_no_T (a : GoString) : ∀ (st st2 : GoString × Bool × Period),
    loopState a st = some st2 → (84 : Byte) ∉ a := by
  induction a with
  | nil => intro st st2 _; simp
  | cons c a ih =>
    rintro ⟨num, neg, p⟩ st2 h
    have hc84 : c ≠ 84 → (84 : Byte) ∉ a → (84 : Byte) ∉ c :: a := by
      intro h1 h2 h3
      rcases List.mem_cons.mp h3 with h4 | h4
      · exact h1 h4.symm
      · exact h2 h4
    rcases byte_cases c with rfl | rfl | hc | hc | hc
    · rw [loopState_minus] at h; exact hc84 (by decide) (ih _ _ h)
    · rw [loopState_plus] at h; exact hc84 (by decide) (ih _ _ h)
    · rw [loopState_numChar c hc] at h
      exact hc84 (by rintro rfl; exact absurd hc (by decide)) (ih _ _ h)
    · have hne : c ≠ 84 := by rintro rfl; exact absurd hc (by decide)
      by_cases hn : num = []
      · subst hn
        rw [loopState_unit_empty c hc] at h; exact hc84 hne (ih _ _ h)
      · cases hp : parseFloat num with
        | none => rw [loopState_unit_none c hc _ _ _ _ hn hp] at h; simp at h
        | some v =>
          rw [loopState_unit_some c hc _ _ _ _ v hn hp] at h; exact hc84 hne (ih _ _ h)
    · rw [loopState_bad_char c hc] at h; simp at h

theorem beforeT_cons_append (a : GoString) (ha : (84 : Byte) ∉ a) (b : GoString) :
    beforeT (80 :: a ++ b) = 80 :: a ++ beforeT b := by
  have hall : ∀ c ∈ 80 :: a, decide (c ≠ 84) = true := by
    intro c hc
    simp only [ne_eq, decide_eq_true_eq]
    rintro rfl
    rcases List.mem_cons.mp hc with h | h
    · exact absurd h (by decide)
    · exact ha h
  unfold beforeT
  exact List.takeWhile_append_of_pos hall

theorem count_point_of_digits (l : GoString) (h : ∀ c ∈ l, isDigit c = true) :
    l.count 46 = 0 :=
  List.count_eq_zero.mpr (fun hm => absurd (h 46 hm) (by decide))

/-- What `ParseFloat` accepts has at most one point and at least one digit. -/
theorem readDecimal_some (n : GoString) (v : Nat × Nat) (h : readDecimal n = some v) :
    n.count 46 ≤ 1 ∧ n.any isDigit = true := by
  have hsplit := List.takeWhile_append_dropWhile isDigit n
  have hip : ∀ c ∈ n.takeWhile isDigit, isDigit c = true :=
    fun c hc => List.mem_takeWhile_imp hc
  unfold readDecimal at h
  cases hd : n.dropWhile isDigit with
  | nil =>
    rw [hd] at h hsplit
    simp only at h
    rw [List.append_nil] at hsplit
    split_ifs at h with h0
    rw [hsplit] at hip h0
    refine ⟨by rw [count_point_of_digits n hip]; omega, ?_⟩
    rw [List.any_eq_true]
    cases n with
    | nil => exact absurd rfl h0
    | cons c n => exact ⟨c, List.mem_cons_self _ _, hip c (List.mem_cons_self _ _)⟩
  | cons c fp =>
    rw [hd] at h hsplit
    simp only at h
    split_ifs at h with hcond
    obtain ⟨rfl, hall, hne⟩ := hcond
    have hfp : ∀ c ∈ fp, isDigit c = true := List.all_eq_true.mp hall
    constructor
    · rw [← hsplit, List.count_append, count_point_of_digits _ hip, List.count_cons_self,
        count_point_of_digits fp hfp]
    · rw [List.any_eq_true]
      rcases hne with hne | hne
      · cases hi : n.takeWhile isDigit with
        | nil => exact absurd hi hne
        | cons x xs =>
          refine ⟨x, ?_, hip x (by rw [hi]; exact List.mem_cons_self _ _)⟩
          rw [← hsplit, hi]; simp
      · cases fp with
        | nil => exact absurd rfl hne
        | cons x xs =>
          refine ⟨x, ?_, hfp x (List.mem_cons_self _ _)⟩
          rw [← hsplit]; simp

/-- A buffer with more than one point, or with no digit, is not a number for `ParseFloat`. -/
theorem parseFloat_invalid (n : GoString) (h : 1 < n.count 46 ∨ n.any isDigit = false) :
    parseFloat n = none := by
  cases hr : readDecimal n with
  | none => unfold parseFloat; rw [hr]
  | some v =>
    obtain ⟨h1, h2⟩ := readDecimal_some n v hr
    rcases h with h | h
    · omega
    · rw [h2] at h; exact absurd h (by decide)

/-! ## The receiver before the call -/

/-- Past the prefix check the outcome of `Parse` does not depend on the receiver. -/
theorem Parse_receiver (p0 p1 : Period) (s : GoString) (h1 : 2 ≤ s.length)
    (h2 : s.head? = some 80) : p0.Parse s = p1.Parse s := by
  rw [Parse_eq_scan p0 s h1 h2, Parse_eq_scan p1 s h1 h2]

theorem Parse_prefix_fail (p : Period) (s : GoString) (h : s.length < 2 ∨ s.head? ≠ some 80) :
    p.Parse s = (p, some errMustStartWithP) := by
  unfold Period.Parse
  rw [if_pos h]

theorem Parse_error_receiver (p0 p1 : Period) (s : GoString) :
    (p0.Parse s).2 = (p1.Parse s).2 ∧
    ((p0.Parse s).2 = none → (p0.Parse s).1 = (p1.Parse s).1) := by
  by_cases h : s.length < 2 ∨ s.head? ≠ some 80
  · rw [Parse_prefix_fail p0 s h, Parse_prefix_fail p1 s h]
    exact ⟨rfl, fun h => by simp at h⟩
  · have h1 : 2 ≤ s.length := by
      by_contra h1; exact h (Or.inl (by omega))
    have h2 : s.head? = some 80 := by
      by_contra h2; exact h (Or.inr h2)
    rw [Parse_receiver p0 p1 s h1 h2]
    exact ⟨rfl, fun _ => rfl⟩

theorem ParsePeriod_eq (s : GoString) :
    ParsePeriod s =
      if (Period.zero.Parse s).2 = none then (some (Period.zero.Parse s).1, none)
      else (none, (Period.zero.Parse s).2) := by
  unfold ParsePeriod
  rcases h : Period.zero.Parse s with ⟨p, _ | e⟩
  · simp
  · simp

/-! ## Helpers for the claims on the loop -/

theorem abs_String (p : Period) : p.abs.String = p.String := by
  unfold Period.String Period.abs
  simp only [isZero_abs, abs_abs]

theorem Parse_error_passes_check (p : Period) (s : GoString) (h : (p.Parse s).2 = none) :
    2 ≤ s.length ∧ s.head? = some 80 := by
  by_contra hcon
  have hf : s.length < 2 ∨ s.head? ≠ some 80 := by
    by_contra h2
    apply hcon
    constructor
    · by_contra h3; exact h2 (Or.inl (by omega))
    · by_contra h3; exact h2 (Or.inr h3)
  rw [Parse_prefix_fail p s hf] at h
  simp at h

theorem scan_units (us : GoString) (h : ∀ u ∈ us, isUnit u = true) (neg : Bool) (p : Period) :
    scan us [] neg p = (p, none) := by
  induction us with
  | nil => rfl
  | cons u us ih =>
    rw [scan_unit_empty u (h u (List.mem_cons_self _ _))]
    exact ih (fun x hx => h x (List.mem_cons_of_mem _ hx))

theorem beforeT_of_mem (s d : GoString) (h : (84 : Byte) ∈ s) :
    beforeT (s ++ d) = beforeT s := by
  unfold beforeT
  rw [List.takeWhile_append, if_neg]
  intro hlen
  have hpre : List.takeWhile (fun c => decide (c ≠ 84)) s = s :=
    (List.takeWhile_prefix _).eq_of_length hlen
  have := List.takeWhile_eq_self_iff.mp hpre 84 h
  simp at this

theorem beforeT_of_not_mem (s : GoString) (h : (84 : Byte) ∉ s) : beforeT s = s := by
  unfold beforeT
  rw [List.takeWhile_eq_self_iff]
  intro c hc
  simp only [ne_eq, decide_eq_true_eq]
  rintro rfl
  exact h hc

theorem beforeT_cons_unit (u : Byte) (hu : isUnit u = true) (b : GoString) :
    beforeT (u :: b) = u :: beforeT b := by
  have hne : u ≠ 84 := by rintro rfl; exact absurd hu (by decide)
  unfold beforeT
  rw [List.takeWhile_cons, if_pos (by simpa using hne)]

/-! # The claims -/

/-- C1, as stated, fails: the period with `Years = +Inf` has four non-negative fields, its
text is `P+InfY`, and `Parse` rejects the `I`. -/
theorem roundtrip_fails_at_posInf :
    (Period.mk F64.posInf F64.zero F64.zero F64.zero).nonneg = true ∧
    (Period.mk F64.posInf F64.zero F64.zero F64.zero).String = bytes "P+InfY" ∧
    (Period.zero.Parse (Period.mk F64.posInf F64.zero F64.zero F64.zero).String).2 =
      some (bytes "invalid character in period: I") := by
  decide

/-- C1, amended: for every period whose four fields are finite and non-negative,
`Parse (String p)` succeeds and yields a period equal to `p` (Go `==`) in all four fields,
whatever the receiver held before. -/
theorem Parse_String_roundtrip (p0 p : Period) (hfin : p.isFinite = true)
    (hnn : p.nonneg = true) :
    (p0.Parse p.String).2 = none ∧ (p0.Parse p.String).1.eq p = true := by
  rw [Parse_String_abs p0 p hfin]
  exact ⟨rfl, Period_abs_eq_of_nonneg p hfin hnn⟩

theorem Parse_String_roundtrip_witness :
    (Period.mk F64.one F64.two F64.zero F64.zero).isFinite = true ∧
    (Period.mk F64.one F64.two F64.zero F64.zero).nonneg = true ∧
    (Period.zero.Parse (Period.mk F64.one F64.two F64.zero F64.zero).String).2 = none ∧
    (Period.zero.Parse (Period.mk F64.one F64.two F64.zero F64.zero).String).1.eq
      (Period.mk F64.one F64.two F64.zero F64.zero) = true :=
  ⟨by decide, by decide,
    Parse_String_roundtrip Period.zero (Period.mk F64.one F64.two F64.zero F64.zero)
      (by decide) (by decide)⟩

/-- C2: `String` is exactly the canonical form: `P0D` when all four fields are zero, and
otherwise `P` followed by the segments of years, months, weeks and days in that order, a
segment being empty for a zero field and the decimal rendering of the absolute value followed
by the unit letter for a non-zero one. -/
theorem String_eq_canonical (p : Period) : p.String = canonical p :=
  String_canonical p

/-- C3, as stated, fails: `P` followed by the single segment `1000...0Y` (a valid decimal
numeral of 310 digits) is well formed, yet `Parse` returns the error
`invalid number format: 1000...0`, because `ParseFloat` reports a range error. -/
theorem segments_fail_on_overflow :
    wellFormedSegments [⟨none, hugeNumeral, 89⟩] ∧
    (Period.zero.Parse (segmentsText [⟨none, hugeNumeral, 89⟩])).2 =
      some (bytes "invalid number format: " ++ hugeNumeral) := by
  refine ⟨⟨by simp, ?_, by simp⟩, by decide!⟩
  intro g hg
  rw [List.mem_singleton] at hg
  subst hg
  exact ⟨by decide, by decide!⟩

/-- C3, amended: for every text `P` followed by one or more segments `[+|-] numeral unit`
with valid decimal numerals that `ParseFloat` converts without a range error and pairwise
distinct unit letters, `Parse` succeeds, each field whose letter is present holds the value of
that segment's numeral (negated when the sign is `-`), every other field is `0`, and every
permutation of the segments yields the same period. -/
theorem Parse_segments (p0 : Period) (gs : List Segment) (hwf : wellFormedSegments gs)
    (hr : ∀ g ∈ gs, (parseFloat g.numeral).isSome = true) :
    ∃ q : Period, p0.Parse (segmentsText gs) = (q, none) ∧
      (∀ g ∈ gs, g.value = some (q.field g.unit)) ∧
      (∀ u : Byte, isUnit u = true → u ∉ gs.map Segment.unit → q.field u = F64.zero) ∧
      (∀ gs2 : List Segment, gs2.Perm gs → p0.Parse (segmentsText gs2) = (q, none)) := by
  have hall : ∀ g ∈ gs, isUnit g.unit = true := fun g hg => (hwf.2.1 g hg).1
  refine ⟨applySegments Period.zero gs, Parse_segmentsText p0 gs hwf hr, ?_, ?_, ?_⟩
  · intro g hg
    rw [applySegments_field_present gs Period.zero hall hwf.2.2 g hg]
    obtain ⟨w, hw⟩ := Option.isSome_iff_exists.mp (hr g hg)
    simp [Segment.value, hw]
  · intro u hu hnot
    rw [applySegments_field_absent gs Period.zero u hu hall hnot]
    have h : u = 89 ∨ u = 77 ∨ u = 87 ∨ u = 68 := (unit_not_others u hu).2.2.2
    rcases h with rfl | rfl | rfl | rfl <;> rfl
  · intro gs2 hperm
    have hwf2 : wellFormedSegments gs2 := by
      refine ⟨?_, fun g hg => hwf.2.1 g (hperm.subset hg),
        (hperm.map Segment.unit).nodup_iff.mpr hwf.2.2⟩
      intro h
      rw [h] at hperm
      exact hwf.1 (List.nil_perm.mp hperm)
    rw [Parse_segmentsText p0 gs2 hwf2 (fun g hg => hr g (hperm.subset hg)),
      applySegments_perm gs2 gs hperm hall hwf.2.2]

theorem Parse_segments_witness :
    wellFormedSegments sampleSegments ∧
    (∀ g ∈ sampleSegments, (parseFloat g.numeral).isSome = true) ∧
    ∃ q : Period, Period.zero.Parse (segmentsText sampleSegments) = (q, none) ∧
      (∀ g ∈ sampleSegments, g.value = some (q.field g.unit)) ∧
      (∀ u : Byte, isUnit u = true → u ∉ sampleSegments.map Segment.unit →
        q.field u = F64.zero) ∧
      (∀ gs2 : List Segment, gs2.Perm sampleSegments →
        Period.zero.Parse (segmentsText gs2) = (q, none)) :=
  have hwf : wellFormedSegments sampleSegments :=
    ⟨by simp [sampleSegments], by
      intro g hg
      simp only [sampleSegments, List.mem_cons, List.mem_singleton, List.not_mem_nil,
        or_false] at hg
      rcases hg with rfl | rfl <;> exact ⟨by decide, by decide⟩, by
      simp [sampleSegments]⟩
  have hr : ∀ g ∈ sampleSegments, (parseFloat g.numeral).isSome = true := by
    intro g hg
    simp only [sampleSegments, List.mem_cons, List.mem_singleton, List.not_mem_nil,
      or_false] at hg
    rcases hg with rfl | rfl <;> decide!
  ⟨hwf, hr, Parse_segments Period.zero sampleSegments hwf hr⟩

/-- C4: prefix rejection: `Parse` returns the error `invalid period format: must start with P`
exactly when the text is shorter than two bytes or does not start with `P`; so do `P` alone,
the empty text, `1Y2M` and `invalid`. -/
theorem Parse_prefix_error_iff :
    (∀ (p : Period) (s : GoString),
      (p.Parse s).2 = some (bytes "invalid period format: must start with P") ↔
        (s.length < 2 ∨ s.head? ≠ some 80)) ∧
    (∀ p : Period, ∀ s ∈ [bytes "P", bytes "", bytes "1Y2M", bytes "invalid"],
      (p.Parse s).2 = some (bytes "invalid period format: must start with P")) := by
  have key : ∀ (p : Period) (s : GoString),
      (p.Parse s).2 = some errMustStartWithP ↔ (s.length < 2 ∨ s.head? ≠ some 80) := by
    intro p s
    constructor
    · intro h
      by_contra hcon
      have h1 : 2 ≤ s.length := by
        by_contra h1; exact hcon (Or.inl (by omega))
      have h2 : s.head? = some 80 := by
        by_contra h2; exact hcon (Or.inr h2)
      rw [Parse_eq_scan p s h1 h2] at h
      rcases scan_error_form _ _ _ _ _ h with ⟨n, hn⟩ | ⟨c, hc⟩
      · exact errInvalidNumber_ne n hn.symm
      · exact errInvalidCharacter_ne c hc.symm
    · intro h
      unfold Period.Parse
      rw [if_pos h]
  refine ⟨key, ?_⟩
  intro p s hs
  apply (key p s).2
  simp only [List.mem_cons, List.mem_singleton, List.not_mem_nil, or_false] at hs
  rcases hs with rfl | rfl | rfl | rfl <;> decide

/-- C5: invalid characters are rejected: when the text has at least two bytes and starts
with `P`, and the part before its first `T` has at some index `i >= 1` a byte other than
`0`-`9`, `.`, `+`, `-`, `Y`, `M`, `W`, `D`, then `Parse` returns an error. -/
theorem Parse_invalid_character (p : Period) (s : GoString) (h1 : 2 ≤ s.length)
    (h2 : s.head? = some 80) (i : Nat) (c : Byte) (hi : 1 ≤ i)
    (hc : (beforeT s)[i]? = some c) (hbad : isPeriodChar c = false) :
    (p.Parse s).2 ≠ none := by
  rw [Parse_eq_scan p s h1 h2]
  apply scan_bad
  refine ⟨c, ?_, hbad⟩
  have h4 : ((beforeT s).drop 1)[i - 1]? = some c := by
    rw [List.getElem?_drop]
    have : 1 + (i - 1) = i := by omega
    rw [this]; exact hc
  exact List.getElem?_mem h4

theorem Parse_invalid_character_witness :
    (Period.zero.Parse (bytes "P1Y2X")).2 ≠ none :=
  Parse_invalid_character Period.zero (bytes "P1Y2X") (by decide) (by decide) 4 88
    (by decide) (by decide) (by decide)

/-- C6: time-component stripping: for a text `u` of at least two bytes that starts with `P`
and has no `T`, and any `r`, `Parse (u ++ "T" ++ r)` has exactly the outcome of `Parse u`. -/
theorem Parse_time_component (p : Period) (u r : GoString) (h1 : 2 ≤ u.length)
    (h2 : u.head? = some 80) (h3 : (84 : Byte) ∉ u) :
    p.Parse (u ++ bytes "T" ++ r) = p.Parse u := by
  have hT : bytes "T" = [84] := by decide
  rw [hT, List.append_assoc, List.singleton_append]
  rw [Parse_eq_scan p u h1 h2, Parse_eq_scan p (u ++ 84 :: r)
    (by rw [List.length_append]; omega) (by rw [head?_append_of_two u _ h1]; exact h2)]
  unfold beforeT
  rw [← cutAtT_eq_takeWhile, ← cutAtT_eq_takeWhile, cutAtT_append u r h3,
    cutAtT_of_not_mem u h3]

theorem Parse_time_component_witness :
    (Period.zero.Parse (bytes "P1YT2H")) = Period.zero.Parse (bytes "P1Y") :=
  Parse_time_component Period.zero (bytes "P1Y") (bytes "2H") (by decide) (by decide)
    (by decide)

/-- C7: sign normalization: `String` of a period is `String` of the period with every field
replaced by its absolute value. -/
theorem String_abs (p : Period) : p.String = p.abs.String := by
  unfold Period.String Period.abs
  simp only [isZero_abs, abs_abs]

/-- C8, as stated, fails: the period with `Years = +Inf` has non-negative fields, is
marshalled as `"P+InfY"`, and `UnmarshalJSON` of those bytes returns an error. -/
theorem json_roundtrip_fails_at_posInf :
    (Period.mk F64.posInf F64.zero F64.zero F64.zero).nonneg = true ∧
    (Period.mk F64.posInf F64.zero F64.zero F64.zero).MarshalJSON (fun s => s) =
      (34 :: bytes "P+InfY" ++ [34], none) ∧
    (Period.zero.UnmarshalJSON (34 :: bytes "P+InfY" ++ [34])).2 =
      some (bytes "invalid character in period: I") := by
  decide

/-- C8, amended: for every period `p` whose four fields are finite and non-negative,
`MarshalJSON p` succeeds with some bytes, and `UnmarshalJSON` of those bytes into any period
succeeds and leaves it equal to `p` (Go `==`) in all four fields. -/
theorem json_roundtrip (nonAscii : GoString → GoString) (p0 p : Period)
    (hfin : p.isFinite = true) (hnn : p.nonneg = true) :
    (p.MarshalJSON nonAscii).2 = none ∧
    (p0.UnmarshalJSON (p.MarshalJSON nonAscii).1).2 = none ∧
    (p0.UnmarshalJSON (p.MarshalJSON nonAscii).1).1.eq p = true := by
  refine ⟨rfl, ?_⟩
  have h : p0.UnmarshalJSON (p.MarshalJSON nonAscii).1 = (p.abs, none) := by
    unfold Period.UnmarshalJSON Period.MarshalJSON
    simp only
    rw [sprintfQ_String, if_neg (by simp), unquote, Parse_String_abs p0 p hfin]
  rw [h]
  exact ⟨rfl, Period_abs_eq_of_nonneg p hfin hnn⟩

theorem json_roundtrip_witness :
    (Period.mk F64.one F64.two F64.zero F64.zero).isFinite = true ∧
    (Period.mk F64.one F64.two F64.zero F64.zero).nonneg = true ∧
    ((Period.mk F64.one F64.two F64.zero F64.zero).MarshalJSON (fun s => s)).2 = none ∧
    (Period.zero.UnmarshalJSON
      ((Period.mk F64.one F64.two F64.zero F64.zero).MarshalJSON (fun s => s)).1).2 = none ∧
    (Period.zero.UnmarshalJSON
      ((Period.mk F64.one F64.two F64.zero F64.zero).MarshalJSON (fun s => s)).1).1.eq
        (Period.mk F64.one F64.two F64.zero F64.zero) = true :=
  ⟨by decide, by decide,
    json_roundtrip (fun s => s) Period.zero (Period.mk F64.one F64.two F64.zero F64.zero)
      (by decide) (by decide)⟩

/-- C9: `MarshalJSON` never fails and returns exactly the bytes of `String p` between two
double quotes; no byte of `String p` is one that quoting escapes. -/
theorem MarshalJSON_eq (nonAscii : GoString → GoString) (p : Period) :
    p.MarshalJSON nonAscii = (34 :: p.String ++ [34], none) ∧
    ∀ b ∈ p.String, b.val < 128 ∧ escapeAscii b = [b] := by
  refine ⟨?_, ?_⟩
  · unfold Period.MarshalJSON
    rw [sprintfQ_String]
  · intro b hb
    obtain ⟨h1, h2, h3, h4⟩ := String_plain p b hb
    exact ⟨by omega, escapeAscii_plain b h1 h2 h3 h4⟩

/-- C10: `UnmarshalJSON` on a token shorter than two bytes returns the error
`invalid JSON string length` and leaves the period as it was; on a longer token it has exactly
the outcome of `Parse` on the token without its first and last byte. -/
theorem UnmarshalJSON_eq (p : Period) (data : GoString) :
    p.UnmarshalJSON data =
      if data.length < 2 then (p, some (bytes "invalid JSON string length"))
      else p.Parse data.tail.dropLast := by
  unfold Period.UnmarshalJSON
  split_ifs with h
  · rfl
  · congr 1
    rw [List.dropLast_eq_take, List.length_tail, ← List.drop_one, List.drop_take]

/-- C11: `Parse` does not depend on the receiver's prior contents and `ParsePeriod` is
`Parse` on a fresh value: whatever the receiver `p0` held, `Parse` on it returns the error
`ParsePeriod` returns, and the value `ParsePeriod` returns is `nil` when that error is not
`nil` and the receiver after `Parse` when it is. -/
theorem ParsePeriod_Parse (p0 : Period) (s : GoString) :
    (p0.Parse s).2 = (ParsePeriod s).2 ∧
    (ParsePeriod s).1 = if (p0.Parse s).2 = none then some (p0.Parse s).1 else none := by
  obtain ⟨h1, h2⟩ := Parse_error_receiver p0 Period.zero s
  rw [ParsePeriod_eq]
  by_cases h : (Period.zero.Parse s).2 = none
  · rw [if_pos h, h1, if_pos h, h2 (h1.trans h)]
    exact ⟨h, rfl⟩
  · rw [if_neg h, h1, if_neg h]
    exact ⟨rfl, rfl⟩

/-- C12, as stated, fails: `Parse` of `P1Y2X` returns the error for the `X` and leaves
`Years = 1` in the period, the value of the segment before the failure. -/
theorem Parse_keeps_partial_result :
    (Period.zero.Parse (bytes "P1Y2X")).2 = some (bytes "invalid character in period: X") ∧
    (Period.zero.Parse (bytes "P1Y2X")).1 = ⟨F64.one, F64.zero, F64.zero, F64.zero⟩ ∧
    (Period.zero.Parse (bytes "P1Y2X")).1 ≠ Period.zero := by
  decide!

/-- C12, amended: `Parse` does not roll back. If it returns an error, then either the text
failed the prefix check and the period is exactly as it was before the call, or the loop
returned at one byte `c` of the text before the first `T`: it had read the bytes `a` before
`c` without returning, `c` is where it returns (a byte outside the grammar, or a unit letter
met with a buffer `ParseFloat` rejects, with the matching error text), and the period is the
one the loop had built from the reset state when it reached `c`, so that every field holds
the last number completed for it before `c` (and `0` when there is none). `P1Y2X` leaves
`Years = 1`. -/
theorem Parse_error_state (p0 : Period) (s : GoString) (herr : (p0.Parse s).2 ≠ none) :
    (((s.length < 2 ∨ s.head? ≠ some 80) ∧
        p0.Parse s = (p0, some (bytes "invalid period format: must start with P"))) ∨
      ∃ (a : GoString) (c : Byte) (b : GoString) (num : GoString) (neg : Bool),
        (beforeT s).drop 1 = a ++ c :: b ∧
        loopState a ([], false, Period.zero) = some (num, neg, (p0.Parse s).1) ∧
        loopState (a ++ [c]) ([], false, Period.zero) = none ∧
        (∀ u : Byte, isUnit u = true →
          (p0.Parse s).1.field u = lastStored (completions a [] false) u) ∧
        ((isPeriodChar c = false ∧
            (p0.Parse s).2 = some (bytes "invalid character in period: " ++ fmtC c)) ∨
          (isUnit c = true ∧ num ≠ [] ∧ parseFloat num = none ∧
            (p0.Parse s).2 = some (bytes "invalid number format: " ++ num)))) ∧
    p0.Parse (bytes "P1Y2X") =
      (⟨F64.one, F64.zero, F64.zero, F64.zero⟩,
        some (bytes "invalid character in period: X")) := by
  constructor
  · by_cases h : s.length < 2 ∨ s.head? ≠ some 80
    · left
      exact ⟨h, Parse_prefix_fail p0 s h⟩
    · right
      have h1 : 2 ≤ s.length := by
        by_contra h1; exact h (Or.inl (by omega))
      have h2 : s.head? = some 80 := by
        by_contra h2; exact h (Or.inr h2)
      rw [Parse_eq_scan p0 s h1 h2] at herr ⊢
      obtain ⟨a, c, b, num, neg, hsplit, hst, hcase⟩ := scan_error_split _ _ _ _ herr
      refine ⟨a, c, b, num, neg, hsplit, hst, ?_, ?_, hcase⟩
      · rw [loopState_append, hst, Option.some_bind]
        rcases hcase with ⟨hc, _⟩ | ⟨hc, hn, hp, _⟩
        · exact loopState_bad_char c hc [] _ _ _
        · exact loopState_unit_none c hc [] _ _ _ hn hp
      · intro u hu
        have hsc := scan_of_loopState_some a [] false Period.zero _ hst
        have hfst : (scan a [] false Period.zero).1 =
            (scan ((beforeT s).drop 1) [] false Period.zero).1 := by rw [hsc]
        rw [← hfst, scan_fst_eq_foldl,
          foldl_setField_field _ (completions_units _ _ _) _ u hu]
        unfold lastStored
        split
        · rfl
        · have hz : u = 89 ∨ u = 77 ∨ u = 87 ∨ u = 68 := (unit_not_others u hu).2.2.2
          rcases hz with rfl | rfl | rfl | rfl <;> rfl
  · rw [Parse_eq_scan p0 (bytes "P1Y2X") (by decide) (by decide)]
    decide!

theorem Parse_error_state_witness :
    (Period.zero.Parse (bytes "P1Y2.X")).2 ≠ none ∧
    ((((bytes "P1Y2.X").length < 2 ∨ (bytes "P1Y2.X").head? ≠ some 80) ∧
        Period.zero.Parse (bytes "P1Y2.X") =
          (Period.zero, some (bytes "invalid period format: must start with P"))) ∨
      ∃ (a : GoString) (c : Byte) (b : GoString) (num : GoString) (neg : Bool),
        (beforeT (bytes "P1Y2.X")).drop 1 = a ++ c :: b ∧
        loopState a ([], false, Period.zero) =
          some (num, neg, (Period.zero.Parse (bytes "P1Y2.X")).1) ∧
        loopState (a ++ [c]) ([], false, Period.zero) = none ∧
        (∀ u : Byte, isUnit u = true →
          (Period.zero.Parse (bytes "P1Y2.X")).1.field u =
            lastStored (completions a [] false) u) ∧
        ((isPeriodChar c = false ∧
            (Period.zero.Parse (bytes "P1Y2.X")).2 =
              some (bytes "invalid character in period: " ++ fmtC c)) ∨
          (isUnit c = true ∧ num ≠ [] ∧ parseFloat num = none ∧
            (Period.zero.Parse (bytes "P1Y2.X")).2 =
              some (bytes "invalid number format: " ++ num)))) ∧
    Period.zero.Parse (bytes "P1Y2X") =
      (⟨F64.one, F64.zero, F64.zero, F64.zero⟩,
        some (bytes "invalid character in period: X")) :=
  ⟨by decide!, Parse_error_state Period.zero (bytes "P1Y2.X") (by decide!)⟩

/-- C13: when `Parse` succeeds, none of the four fields of the period is NaN or an infinity;
the numeral `1000...0` of 310 digits, too large for a `float64`, makes `Parse` fail. -/
theorem Parse_finite (p0 : Period) (s : GoString) (h : (p0.Parse s).2 = none) :
    (p0.Parse s).1.isFinite = true ∧
    (p0.Parse (80 :: hugeNumeral ++ [89])).2 ≠ none := by
  obtain ⟨h1, h2⟩ := Parse_error_passes_check p0 s h
  constructor
  · rw [Parse_eq_scan p0 s h1 h2, scan_fst_eq_foldl]
    exact foldl_setField_finite _ (completions_finite _ _ _) _ (by decide)
  · rw [Parse_eq_scan p0 (80 :: hugeNumeral ++ [89]) (by decide!) (by decide!)]
    decide!

theorem Parse_finite_witness :
    (Period.zero.Parse (bytes "P-1Y")).2 = none ∧
    (Period.zero.Parse (bytes "P-1Y")).1.isFinite = true ∧
    (Period.zero.Parse (80 :: hugeNumeral ++ [89])).2 ≠ none :=
  ⟨by decide!, Parse_finite Period.zero (bytes "P-1Y") (by decide!)⟩

/-- C14: last occurrence wins: when `Parse` succeeds, each field holds the value of the last
number completed by its unit letter in the text (and `0` when its letter completed none);
`P1Y2Y` yields `Years = 2` and every other field `0`. -/
theorem Parse_last_wins (p0 : Period) (s : GoString) (h : (p0.Parse s).2 = none) (u : Byte)
    (hu : isUnit u = true) :
    (p0.Parse s).1.field u = lastStored (completions ((beforeT s).drop 1) [] false) u ∧
    p0.Parse (bytes "P1Y2Y") = (⟨F64.two, F64.zero, F64.zero, F64.zero⟩, none) := by
  obtain ⟨h1, h2⟩ := Parse_error_passes_check p0 s h
  constructor
  · rw [Parse_eq_scan p0 s h1 h2, scan_fst_eq_foldl,
      foldl_setField_field _ (completions_units _ _ _) _ u hu]
    unfold lastStored
    split
    · rfl
    · have hz : u = 89 ∨ u = 77 ∨ u = 87 ∨ u = 68 := (unit_not_others u hu).2.2.2
      rcases hz with rfl | rfl | rfl | rfl <;> rfl
  · rw [Parse_eq_scan p0 _ (by decide) (by decide)]
    decide!

theorem Parse_last_wins_witness :
    (Period.zero.Parse (bytes "P1Y2Y")).2 = none ∧ isUnit 89 = true ∧
    (Period.zero.Parse (bytes "P1Y2Y")).1.field 89 =
      lastStored (completions ((beforeT (bytes "P1Y2Y")).drop 1) [] false) 89 ∧
    Period.zero.Parse (bytes "P1Y2Y") = (⟨F64.two, F64.zero, F64.zero, F64.zero⟩, none) :=
  ⟨by decide!, by decide,
    Parse_last_wins Period.zero (bytes "P1Y2Y") (by decide!) 89 (by decide)⟩

/-- C15: pending-sign semantics: let `w` be the text the loop reads from the state right
after a completed number (or after the leading `P`) without completing a number, and let a
unit letter then complete the number in the buffer. The number is stored negated exactly when
the last `+` or `-` of `w` is `-`, wherever the signs stand among the digits, and not negated
when `w` has no sign; the loop goes on with an empty buffer and the flag reset. So `P1-Y`
yields `Years = -1`, `P-+1Y` yields `Years = 1`, and `P-1Y2M` yields `Months = 2`. -/
theorem pending_sign (w : GoString) (p : Period) (st : GoString × Bool × Period)
    (hstate : loopState w ([], false, p) = some st) (hnone : completions w [] false = [])
    (u : Byte) (hu : isUnit u = true) (v : F64) (hn : st.1 ≠ [])
    (hv : parseFloat st.1 = some v) (rest : GoString) :
    st.2.1 = pendingSign w ∧
    scan (w ++ u :: rest) [] false p =
      scan rest [] false (setField u (if pendingSign w = true then v.neg else v) p) ∧
    Period.zero.Parse (bytes "P1-Y") = (⟨F64.one.neg, F64.zero, F64.zero, F64.zero⟩, none) ∧
    Period.zero.Parse (bytes "P-+1Y") = (⟨F64.one, F64.zero, F64.zero, F64.zero⟩, none) ∧
    Period.zero.Parse (bytes "P-1Y2M") =
      (⟨F64.one.neg, F64.two, F64.zero, F64.zero⟩, none) := by
  obtain ⟨h1, h2⟩ := loopState_chunk w [] false p st hstate hnone
  have hps : st.2.1 = pendingSign w := by rw [h1]; rfl
  refine ⟨hps, ?_, by decide!, by decide!, by decide!⟩
  rw [scan_append_of_loopState w [] false p st (u :: rest) hstate,
    scan_unit_some u hu rest st.1 st.2.1 st.2.2 v hn hv, hps, h2]

theorem pending_sign_witness :
    loopState (bytes "1-") ([], false, Period.zero) = some (bytes "1", true, Period.zero) ∧
    completions (bytes "1-") [] false = [] ∧
    parseFloat (bytes "1") = some F64.one ∧
    true = pendingSign (bytes "1-") ∧
    scan (bytes "1-" ++ 89 :: []) [] false Period.zero =
      scan [] [] false
        (setField 89 (if pendingSign (bytes "1-") = true then F64.one.neg else F64.one)
          Period.zero) :=
  have h := pending_sign (bytes "1-") Period.zero (bytes "1", true, Period.zero) (by decide!)
    (by decide!) 89 (by decide) F64.one (by decide) (by decide!) []
  ⟨by decide!, by decide!, by decide!, h.1, h.2.1⟩

/-- C16: a unit letter met with an empty buffer is a no-op: when the loop reaches the end of
`a` with an empty buffer, `Parse ("P" ++ a ++ u ++ b)` has the outcome of
`Parse ("P" ++ a ++ b)` for every unit letter `u` and every `b`, provided the latter text has
at least two bytes; and `P` followed by one or more unit letters parses to the all-zero
period. -/
theorem unit_letter_noop (p0 : Period) (a b : GoString) (u : Byte)
    (st : GoString × Bool × Period)
    (hstate : loopState a ([], false, Period.zero) = some st) (hempty : st.1 = [])
    (hu : isUnit u = true) (hlen : 2 ≤ (80 :: a ++ b).length) :
    p0.Parse (80 :: a ++ u :: b) = p0.Parse (80 :: a ++ b) ∧
    ∀ us : GoString, us ≠ [] → (∀ x ∈ us, isUnit x = true) →
      p0.Parse (80 :: us) = (Period.zero, none) := by
  have hT := loopState_no_T a _ _ hstate
  constructor
  · rw [Parse_eq_scan p0 (80 :: a ++ u :: b)
        (by simp only [List.length_append, List.length_cons] at hlen ⊢; omega) rfl,
      Parse_eq_scan p0 (80 :: a ++ b) hlen rfl, beforeT_cons_append a hT,
      beforeT_cons_append a hT, beforeT_cons_unit u hu]
    simp only [List.cons_append, List.drop_one, List.tail_cons]
    rw [scan_append_of_loopState a [] false Period.zero st _ hstate,
      scan_append_of_loopState a [] false Period.zero st _ hstate, hempty,
      scan_unit_empty u hu]
  · intro us hne hall
    have hlen2 : 2 ≤ (80 :: us).length := by
      have := List.length_pos.mpr hne
      simp only [List.length_cons]; omega
    have hnoT : (84 : Byte) ∉ 80 :: us := by
      intro h
      rcases List.mem_cons.mp h with h | h
      · exact absurd h (by decide)
      · exact absurd (hall 84 h) (by decide)
    rw [Parse_eq_scan p0 (80 :: us) hlen2 rfl, beforeT_of_not_mem _ hnoT, List.drop_one,
      List.tail_cons, scan_units us hall]

theorem unit_letter_noop_witness :
    loopState (bytes "1Y-") ([], false, Period.zero) =
      some ([], true, ⟨F64.one, F64.zero, F64.zero, F64.zero⟩) ∧
    Period.zero.Parse (80 :: bytes "1Y-" ++ 77 :: bytes "2W") =
      Period.zero.Parse (80 :: bytes "1Y-" ++ bytes "2W") ∧
    ∀ us : GoString, us ≠ [] → (∀ x ∈ us, isUnit x = true) →
      Period.zero.Parse (80 :: us) = (Period.zero, none) :=
  ⟨by decide!,
    unit_letter_noop Period.zero (bytes "1Y-") (bytes "2W") 77
      ([], true, ⟨F64.one, F64.zero, F64.zero, F64.zero⟩) (by decide!) rfl (by decide)
      (by decide)⟩

/-- C17: invalid numerals are rejected: when the text passes the prefix check and the loop
reaches a unit letter (before any `T` and any invalid character) with a non-empty buffer that
has more than one `.` or no digit, `Parse` returns the error `invalid number format: ` followed
by the buffer; `P1.2.3Y` and `P.Y` fail that way. -/
theorem invalid_numeral_rejected (p0 : Period) (a b : GoString) (u : Byte)
    (st : GoString × Bool × Period)
    (hstate : loopState a ([], false, Period.zero) = some st) (hne : st.1 ≠ [])
    (hbad : 1 < st.1.count 46 ∨ st.1.any isDigit = false) (hu : isUnit u = true) :
    p0.Parse (80 :: a ++ u :: b) = (st.2.2, some (bytes "invalid number format: " ++ st.1)) ∧
    (p0.Parse (bytes "P1.2.3Y")).2 = some (bytes "invalid number format: 1.2.3") ∧
    (p0.Parse (bytes "P.Y")).2 = some (bytes "invalid number format: .") := by
  have hT := loopState_no_T a _ _ hstate
  refine ⟨?_, ?_, ?_⟩
  · rw [Parse_eq_scan p0 (80 :: a ++ u :: b)
        (by simp only [List.length_append, List.length_cons]; omega) rfl,
      beforeT_cons_append a hT, beforeT_cons_unit u hu]
    simp only [List.cons_append, List.drop_one, List.tail_cons]
    rw [scan_append_of_loopState a [] false Period.zero st _ hstate,
      scan_unit_none u hu _ st.1 st.2.1 st.2.2 hne (parseFloat_invalid st.1 hbad)]
    rfl
  · rw [Parse_eq_scan p0 (bytes "P1.2.3Y") (by decide) (by decide)]
    decide!
  · rw [Parse_eq_scan p0 (bytes "P.Y") (by decide) (by decide)]
    decide!

theorem invalid_numeral_rejected_witness :
    loopState (bytes "1Y1.2.3") ([], false, Period.zero) =
      some (bytes "1.2.3", false, ⟨F64.one, F64.zero, F64.zero, F64.zero⟩) ∧
    Period.zero.Parse (80 :: bytes "1Y1.2.3" ++ 77 :: bytes "4D") =
      (⟨F64.one, F64.zero, F64.zero, F64.zero⟩,
        some (bytes "invalid number format: " ++ bytes "1.2.3")) ∧
    (Period.zero.Parse (bytes "P1.2.3Y")).2 = some (bytes "invalid number format: 1.2.3") ∧
    (Period.zero.Parse (bytes "P.Y")).2 = some (bytes "invalid number format: .") :=
  ⟨by decide!,
    invalid_numeral_rejected Period.zero (bytes "1Y1.2.3") (bytes "4D") 77
      (bytes "1.2.3", false, ⟨F64.one, F64.zero, F64.zero, F64.zero⟩) (by decide!)
      (by decide) (Or.inl (by decide)) (by decide)⟩

/-- C18: `Parse` undoes `String` up to sign: for a period `p` with finite fields,
`Parse (String p)` succeeds and yields the period of the absolute values of the fields of
`p`, and `String` of that period is `String p` again. -/
theorem Parse_String_fixed_point (p0 p : Period) (hfin : p.isFinite = true) :
    p0.Parse p.String = (p.abs, none) ∧ (p0.Parse p.String).1.String = p.String := by
  rw [Parse_String_abs p0 p hfin]
  exact ⟨rfl, abs_String p⟩

theorem Parse_String_fixed_point_witness :
    (Period.mk F64.one.neg F64.two F64.zero F64.zero).isFinite = true ∧
    Period.zero.Parse (Period.mk F64.one.neg F64.two F64.zero F64.zero).String =
      ((Period.mk F64.one.neg F64.two F64.zero F64.zero).abs, none) ∧
    (Period.zero.Parse (Period.mk F64.one.neg F64.two F64.zero F64.zero).String).1.String =
      (Period.mk F64.one.neg F64.two F64.zero F64.zero).String :=
  ⟨by decide,
    Parse_String_fixed_point Period.zero (Period.mk F64.one.neg F64.two F64.zero F64.zero)
      (by decide)⟩

/-- C19: a trailing numeral without unit letter is discarded: when `Parse s` succeeds and
`d` is made of digits, `.`, `+` and `-` only, `Parse (s ++ d)` succeeds with the same four
fields; `P1Y2` yields `Years = 1` and `P12` the all-zero period. -/
theorem trailing_numeral_discarded (p0 : Period) (s d : GoString)
    (hs : (p0.Parse s).2 = none)
    (hd : ∀ b ∈ d, isDigit b = true ∨ b = 46 ∨ b = 43 ∨ b = 45) :
    p0.Parse (s ++ d) = p0.Parse s ∧
    p0.Parse (bytes "P1Y2") = (⟨F64.one, F64.zero, F64.zero, F64.zero⟩, none) ∧
    p0.Parse (bytes "P12") = (Period.zero, none) := by
  obtain ⟨h1, h2⟩ := Parse_error_passes_check p0 s hs
  have hd2 : ∀ b ∈ d, isSign b = true ∨ isNumChar b = true := by
    intro b hb
    rcases hd b hb with h | rfl | rfl | rfl
    · right; simp [isNumChar, h]
    · right; decide
    · left; decide
    · left; decide
  refine ⟨?_, ?_, ?_⟩
  · have hlen : 2 ≤ (s ++ d).length := by rw [List.length_append]; omega
    have hhead : (s ++ d).head? = some 80 := by rw [head?_append_of_two s d h1]; exact h2
    rw [Parse_eq_scan p0 s h1 h2] at hs ⊢
    rw [Parse_eq_scan p0 (s ++ d) hlen hhead]
    by_cases hT : (84 : Byte) ∈ s
    · rw [beforeT_of_mem s d hT]
    · have hTd : (84 : Byte) ∉ s ++ d := by
        intro h
        rcases List.mem_append.mp h with h | h
        · exact hT h
        · rcases hd2 84 h with h | h <;> exact absurd h (by decide)
      rw [beforeT_of_not_mem s hT] at hs ⊢
      rw [beforeT_of_not_mem _ hTd]
      have hdrop : (s ++ d).drop 1 = s.drop 1 ++ d := by
        cases s with
        | nil => simp at h1
        | cons x xs => rfl
      rw [hdrop]
      exact scan_append_trailing _ d hd2 _ _ _ hs
  · rw [Parse_eq_scan p0 (bytes "P1Y2") (by decide) (by decide)]
    decide!
  · rw [Parse_eq_scan p0 (bytes "P12") (by decide) (by decide)]
    decide!

theorem trailing_numeral_discarded_witness :
    (Period.zero.Parse (bytes "P1Y")).2 = none ∧
    Period.zero.Parse (bytes "P1Y" ++ bytes "-2.") = Period.zero.Parse (bytes "P1Y") ∧
    Period.zero.Parse (bytes "P1Y2") = (⟨F64.one, F64.zero, F64.zero, F64.zero⟩, none) ∧
    Period.zero.Parse (bytes "P12") = (Period.zero, none) :=
  ⟨by decide!,
    trailing_numeral_discarded Period.zero (bytes "P1Y") (bytes "-2.") (by decide!)
      (by decide!)⟩

/-- C20: a text with only a time component parses as zero: `Parse ("PT" ++ r)` succeeds for
every `r` and yields the all-zero period, whereas `Parse "P"` returns the prefix error. -/
theorem Parse_PT (p0 : Period) (r : GoString) :
    p0.Parse (bytes "PT" ++ r) = (Period.zero, none) ∧
    p0.Parse (bytes "P") = (p0, some (bytes "invalid period format: must start with P")) := by
  constructor
  · have hPT : bytes "PT" ++ r = 80 :: 84 :: r := by
      have : bytes "PT" = [80, 84] := by decide
      rw [this]; rfl
    have hb : beforeT (80 :: 84 :: r) = [80] := by
      unfold beforeT
      rw [List.takeWhile_cons, if_pos (by decide), List.takeWhile_cons, if_neg (by decide)]
    rw [hPT, Parse_eq_scan p0 (80 :: 84 :: r)
      (by simp only [List.length_cons]; omega) rfl, hb]
    rfl
  · exact Parse_prefix_fail p0 (bytes "P") (Or.inl (by decide))

end Iso8601
